import Mathlib

/-!
Verification of the estimation-and-mapping core of the
`autonomous_exploration_of_unknown_environments` repository.

The geometric world model (`multi_slam/Map.py`) is embedded over an
arbitrary linear ordered field: coordinates are field elements, the
rectangular boundary is the closed ring of four edge segments produced by
`Map.__init__`, obstacles are the axis-aligned rectangular polygons that
the repository constructs (`Polygon` of `center ± radius` corners), and
beacons are points.  The shapely intersection primitives used by
`Map.intersections` are modelled by exact set-theoretic segment/segment
and segment/rectangle intersection with representative-point extraction,
mirroring `Map._extract_points` (vertices of the intersection locus).

`SLAMNode` (`SlamNode.py`) is embedded as pure functions on the data it
manipulates; the particle-filter localizer (`multi_slam/Localization.py`,
not present in the sources) is modelled from the specification.
-/

namespace MultiSlam

/-- A planar point `(x, y)`, as used by `shapely.geometry.Point`. -/
abbrev Pt (α : Type) := α × α

/-- A line segment given by its two endpoints, as used by
`shapely.geometry.LineString([(x0, y0), (x1, y1)])`. -/
abbrev Seg (α : Type) := Pt α × Pt α

variable {α : Type} [LinearOrderedField α]

/-- Componentwise difference of two points. -/
def pvsub (u v : Pt α) : Pt α := (u.1 - v.1, u.2 - v.2)

/-- The planar cross product `u.x * v.y - u.y * v.x`. -/
def cross (u v : Pt α) : α := u.1 * v.2 - u.2 * v.1

/-- The planar dot product. -/
def dotp (u v : Pt α) : α := u.1 * v.1 + u.2 * v.2

/-- The point `P + t * d`: the affine parametrization of the line through
`P` with direction `d`. -/
def paff (P : Pt α) (t : α) (d : Pt α) : Pt α := (P.1 + t * d.1, P.2 + t * d.2)

/-- Predicate: `x` lies (inclusively) between `a` and `b`, in either order. -/
def between (a b x : α) : Prop := min a b ≤ x ∧ x ≤ max a b

instance (a b x : α) : Decidable (between a b x) :=
  decidable_of_iff (min a b ≤ x ∧ x ≤ max a b) Iff.rfl

/-- Set membership of a point in a segment: the point is on the segment's
line (zero cross product with the direction) and inside the segment's
bounding box. -/
def onSeg (p : Pt α) (s : Seg α) : Prop :=
  cross (pvsub s.2 s.1) (pvsub p s.1) = 0 ∧
    between s.1.1 s.2.1 p.1 ∧ between s.1.2 s.2.2 p.2

instance (p : Pt α) (s : Seg α) : Decidable (onSeg p s) :=
  decidable_of_iff
    (cross (pvsub s.2 s.1) (pvsub p s.1) = 0 ∧
      between s.1.1 s.2.1 p.1 ∧ between s.1.2 s.2.2 p.2) Iff.rfl

/-- Representative points of the exact intersection of two segments,
mirroring what `Map._extract_points` collects from a shapely
`LineString.intersection(LineString)` result: the single crossing point
for transversal segments, and both endpoints of the overlap for collinear
ones (one point when the overlap degenerates). -/
def segSegRep (e q : Seg α) : List (Pt α) :=
  let d1 := pvsub e.2 e.1
  let d2 := pvsub q.2 q.1
  if d1 = ((0 : α), (0 : α)) then
    if d2 = ((0 : α), (0 : α)) then (if e.1 = q.1 then [e.1] else [])
    else (if onSeg e.1 q then [e.1] else [])
  else if d2 = ((0 : α), (0 : α)) then (if onSeg q.1 e then [q.1] else [])
  else
    let r := cross d1 d2
    if r = 0 then
      if cross d1 (pvsub q.1 e.1) = 0 then
        let den := dotp d1 d1
        let u0 := dotp (pvsub q.1 e.1) d1 / den
        let u1 := dotp (pvsub q.2 e.1) d1 / den
        let lo := max 0 (min u0 u1)
        let hi := min 1 (max u0 u1)
        if lo > hi then []
        else if lo = hi then [paff e.1 lo d1]
        else [paff e.1 lo d1, paff e.1 hi d1]
      else []
    else
      let s := pvsub q.1 e.1
      let t := cross s d2 / r
      let u := cross s d1 / r
      if 0 ≤ t ∧ t ≤ 1 ∧ 0 ≤ u ∧ u ≤ 1 then [paff e.1 t d1] else []

/-- An axis-aligned rectangular obstacle; every obstacle the repository
constructs is a `shapely.geometry.Polygon` of the four corners
`center ± radius`. -/
structure Rect (α : Type) where
  xmin : α
  ymin : α
  xmax : α
  ymax : α

/-- Set membership of a point in a (filled, closed) rectangular obstacle. -/
def inRect (p : Pt α) (r : Rect α) : Prop :=
  r.xmin ≤ p.1 ∧ p.1 ≤ r.xmax ∧ r.ymin ≤ p.2 ∧ p.2 ≤ r.ymax

instance (p : Pt α) (r : Rect α) : Decidable (inRect p r) :=
  decidable_of_iff
    (r.xmin ≤ p.1 ∧ p.1 ≤ r.xmax ∧ r.ymin ≤ p.2 ∧ p.2 ≤ r.ymax) Iff.rfl

/-- The four edge segments of a rectangular obstacle, in the corner order
used by the repository's `Polygon([...])` construction. -/
def rectEdges (r : Rect α) : List (Seg α) :=
  [((r.xmin, r.ymin), (r.xmax, r.ymin)),
   ((r.xmax, r.ymin), (r.xmax, r.ymax)),
   ((r.xmax, r.ymax), (r.xmin, r.ymax)),
   ((r.xmin, r.ymax), (r.xmin, r.ymin))]

/-- The point lies on one of the rectangle's four edges. -/
def onRectEdge (p : Pt α) (r : Rect α) : Prop := ∃ e ∈ rectEdges r, onSeg p e

/-- The `t`-interval for which the coordinate `p + t * d` lies in
`[lo, hi]` (the slab test of Liang-Barsky clipping); `none` when the
interval is empty for every `t`. -/
def clip1D (p d lo hi : α) : Option (α × α) :=
  if d = 0 then (if lo ≤ p ∧ p ≤ hi then some (0, 1) else none)
  else if 0 < d then some ((lo - p) / d, (hi - p) / d)
  else some ((hi - p) / d, (lo - p) / d)

/-- Representative points of the exact intersection of a filled rectangle
with a segment: shapely's `Polygon.intersection(LineString)` clips the
segment to the rectangle and `Map._extract_points` then collects the
clipped segment's endpoints (or the single touching point). -/
def rectSegRep (r : Rect α) (q : Seg α) : List (Pt α) :=
  let d := pvsub q.2 q.1
  match clip1D q.1.1 d.1 r.xmin r.xmax, clip1D q.1.2 d.2 r.ymin r.ymax with
  | some (a1, b1), some (a2, b2) =>
    let t0 := max 0 (max a1 a2)
    let t1 := min 1 (min b1 b2)
    if t0 > t1 then []
    else if t0 = t1 then [paff q.1 t0 d]
    else [paff q.1 t0 d, paff q.1 t1 d]
  | _, _ => []

/-- The world model of `multi_slam/Map.py`: a rectangular boundary kept as
its ring of edge segments (`Polygon(...).boundary`), a list of
(rectangular) obstacles and a list of beacons. -/
structure MapModel (α : Type) where
  boundary : List (Seg α)
  obstacles : List (Rect α)
  beacons : List (Pt α)

/-- Constructor `Map.__init__(x_min, y_min, x_max, y_max, obstacles, beacons)`: the
boundary is the closed ring of the rectangle's four edges, in the corner
order of the source. -/
def mkMap (x_min y_min x_max y_max : α)
    (obstacles : List (Rect α)) (beacons : List (Pt α)) : MapModel α :=
  { boundary :=
      [((x_min, y_min), (x_max, y_min)),
       ((x_max, y_min), (x_max, y_max)),
       ((x_max, y_max), (x_min, y_max)),
       ((x_min, y_max), (x_min, y_min))],
    obstacles := obstacles,
    beacons := beacons }

/-- The method `Map.intersections(geom)` for a segment query: representative points
of the query's intersection with the boundary, followed by those with
each obstacle in order (empty intersections contribute nothing, matching
the `is_empty` guards of the source). -/
def intersections (m : MapModel α) (q : Seg α) : List (Pt α) :=
  (m.boundary.flatMap fun e => segSegRep e q) ++
    (m.obstacles.flatMap fun r => rectSegRep r q)

/-- The point lies on the map's boundary ring. -/
def onBoundary (m : MapModel α) (p : Pt α) : Prop := ∃ e ∈ m.boundary, onSeg p e

/-- Python's `min(iterable, key=f)` on the non-empty list `a :: l`: the
first element attaining the minimal key. -/
def pyMinBy {β γ : Type} [LinearOrder γ] (f : β → γ) (a : β) (l : List β) : β :=
  l.foldl (fun best y => if f y < f best then y else best) a

/-- Python's `min(iterable)` on the non-empty list `a :: l`. -/
def pyMinList (a : α) (l : List α) : α := l.foldl min a

/-- Python's `range(0, stop, step)` for a positive integer `step`: the
multiples of `step` below `stop`, in increasing order. -/
def pyRange (stop step : ℕ) : List ℕ :=
  (List.range ((stop + step - 1) / step)).map (· * step)

/-- Python's `numpy.argmax` on a non-empty list: the index of the first occurrence
of the maximal value. -/
noncomputable def pyArgmax (l : List ℝ) : ℕ :=
  (l.enum.foldl
    (fun best p => if best.2 < p.2 then p else best) (0, l.headD 0)).1

/-- Predicate: `x` is the element of `l` with the least key `f x`, and every element
before it in `l` has a strictly greater key (Python's `min(..., key=f)`
tie-breaking by encounter order). -/
def isFirstMinBy {β γ : Type} [LinearOrder γ] (f : β → γ) (l : List β) (x : β) : Prop :=
  ∃ i, l.get? i = some x ∧ (∀ y ∈ l, f x ≤ f y) ∧
    ∀ j, j < i → ∀ y, l.get? j = some y → f x < f y

/-- Predicate: `i` is the index of the first occurrence of the maximal value of `l`
(`numpy.argmax` tie-breaking). -/
def isFirstMaxIdx (l : List ℝ) (i : ℕ) : Prop :=
  ∃ v, l.get? i = some v ∧ (∀ y ∈ l, y ≤ v) ∧
    ∀ j, j < i → ∀ y, l.get? j = some y → y < v

/-- Euclidean distance between two points, as computed by shapely's
`Point.distance`. -/
noncomputable def euclidDist (p q : Pt ℝ) : ℝ :=
  Real.sqrt ((q.1 - p.1) ^ 2 + (q.2 - p.2) ^ 2)

/-- The far endpoint of the LiDAR ray at integer angle `theta` (degrees):
`pos + r_max * (cos (radians theta), sin (radians theta))`. -/
noncomputable def rayEndpoint (pos : Pt ℝ) (theta : ℕ) (r_max : ℝ) : Pt ℝ :=
  (pos.1 + r_max * Real.cos (theta * Real.pi / 180),
   pos.2 + r_max * Real.sin (theta * Real.pi / 180))

/-- The LiDAR ray segment cast from `pos` at angle `theta`, as built by
`calc_lidar_point_cloud`. -/
noncomputable def lidarRay (pos : Pt ℝ) (theta : ℕ) (r_max : ℝ) : Seg ℝ :=
  (pos, rayEndpoint pos theta r_max)

/-- The per-ray body of `Map.calc_lidar_point_cloud`'s second loop: the
closest intersection point (Python `min` by distance) relative to the
pose when its distance is within `[r_min, r_max]`, nothing when it is out
of range, and the ray's far endpoint relative to the pose when the ray
intersects nothing. -/
noncomputable def lidarPerRay (m : MapModel ℝ) (pos : Pt ℝ) (r_max r_min : ℝ)
    (ray : Seg ℝ) : Option (ℝ × ℝ × ℝ) :=
  match intersections m ray with
  | [] => some (ray.2.1 - pos.1, ray.2.2 - pos.2, 0)
  | c :: rest =>
    let closest := pyMinBy (fun p => euclidDist pos p) c rest
    let distance := euclidDist pos closest
    if r_min ≤ distance ∧ distance ≤ r_max then
      some (closest.1 - pos.1, closest.2 - pos.2, 0)
    else none

/-- The method `Map.calc_lidar_point_cloud(pos_true, delta_theta, r_max, r_min)`:
rays are built for `theta in range(0, 360, delta_theta)` and each ray
contributes through `lidarPerRay`; emitted points are offsets
`(p.x - pos.x, p.y - pos.y, 0)` from the pose. -/
noncomputable def calc_lidar_point_cloud (m : MapModel ℝ) (pos_true : Pt ℝ)
    (delta_theta : ℕ) (r_max r_min : ℝ) : List (ℝ × ℝ × ℝ) :=
  ((pyRange 360 delta_theta).map fun theta => lidarRay pos_true theta r_max).filterMap
    (lidarPerRay m pos_true r_max r_min)

/-- The method `Map.calc_beacon_positions(pos_true)`: for each beacon, the segment
from the pose to the beacon is intersected with the map; the beacon's
offset `(b.x - pos.x, b.y - pos.y, 0)` is kept exactly when the
intersection list is empty. -/
def calc_beacon_positions (m : MapModel α) (pos_true : Pt α) : List (α × α × α) :=
  m.beacons.filterMap fun b =>
    if intersections m (pos_true, b) = [] then
      some (b.1 - pos_true.1, b.2 - pos_true.2, 0)
    else none

namespace MapPy

/-- The method `Map.return_se_to_closest_beacon` of `multi_slam/Map.py`: the Python
float `10e5` (that is, `1000000`) when there are no beacons, otherwise
the square of the minimum Euclidean distance from the point to a beacon
(Python's `min(distances) ** 2`). -/
noncomputable def return_se_to_closest_beacon (beacons : List (Pt ℝ)) (point : Pt ℝ) : ℝ :=
  match beacons with
  | [] => 1000000
  | b :: bs => (pyMinList (euclidDist point b) (bs.map fun x => euclidDist point x)) ^ 2

end MapPy

namespace VizPy

/-- The method `Map.return_se_to_closest_beacon` of `experiments/visualize_map.py`:
identical to the copy in `multi_slam/Map.py` except that the no-beacon
sentinel is the Python float `-10e5` (that is, `-1000000`). -/
noncomputable def return_se_to_closest_beacon (beacons : List (Pt ℝ)) (point : Pt ℝ) : ℝ :=
  match beacons with
  | [] => -1000000
  | b :: bs => (pyMinList (euclidDist point b) (bs.map fun x => euclidDist point x)) ^ 2

end VizPy

/-- The planar part of a `geometry_msgs/Twist` command as `SLAMNode` fills
it: `linear.x`, `linear.y` and `angular.z` (all other components stay at
the message default `0.0`). -/
structure Twist where
  linear_x : ℝ
  linear_y : ℝ
  angular_z : ℝ

/-- A 2-by-2 landmark covariance, by entries
`[[a11, a12], [a21, a22]]`. -/
structure Cov2 where
  a11 : ℝ
  a12 : ℝ
  a21 : ℝ
  a22 : ℝ

/-- The determinant `numpy.linalg.det` of a 2-by-2 covariance. -/
def Cov2.det (c : Cov2) : ℝ := c.a11 * c.a22 - c.a12 * c.a21

/-- The method `SLAMNode.update_control_proposed`, as a function of the mapper's
tracked landmark positions and covariances and the current position
estimate: with no landmarks it publishes the fixed slow
rotate-and-advance command `(linear.x, angular.z) = (0.1, 0.2)`;
otherwise it targets the landmark whose covariance determinant is
largest (first such index, `numpy.argmax`), computes the Euclidean
distance to it and publishes `linear.x = min(0.3 * distance, 0.2)`,
negated when the target's x-offset is negative, with zero lateral and
angular components. -/
noncomputable def update_control_proposed (beacon_positions : List (Pt ℝ))
    (beacon_covariances : List Cov2) (position : ℝ × ℝ × ℝ) : Twist :=
  match beacon_positions with
  | [] => { linear_x := 0.1, linear_y := 0, angular_z := 0.2 }
  | b0 :: _ =>
    let beacon_uncertainties := beacon_covariances.map Cov2.det
    let target_idx := pyArgmax beacon_uncertainties
    let target_beacon := beacon_positions.getD target_idx b0
    let delta_x := target_beacon.1 - position.1
    let delta_y := target_beacon.2 - position.2.1
    let distance := Real.sqrt (delta_x ^ 2 + delta_y ^ 2)
    let linear_x := min (0.3 * distance) 0.2
    { linear_x := if delta_x < 0 then -linear_x else linear_x,
      linear_y := 0, angular_z := 0 }

/-- The clamp `numpy.clip(l, -10.0, 10.0)`. -/
def clampLogOdds (l : ℝ) : ℝ := min (max l (-10)) 10

/-- Truncation toward zero followed by the wrap-around of a C cast to
`int8`, as performed by `numpy.ndarray.astype(numpy.int8)`. -/
noncomputable def int8Trunc (x : ℝ) : ℤ :=
  ((if 0 ≤ x then ⌊x⌋ else -⌊-x⌋) + 128) % 256 - 128

/-- The occupancy value `SLAMNode.publish_map` computes for one cell:
`int8(100 * (1 / (1 + exp(-clip(l, -10, 10)))))`. -/
noncomputable def occupancyOf (l : ℝ) : ℤ :=
  int8Trunc (100 * (1 / (1 + Real.exp (-clampLogOdds l))))

/-- The `data` array of the `OccupancyGrid` message `publish_map`
publishes: the per-cell occupancy values of the log-odds grid, flattened
row-major (`numpy.ndarray.flatten` in C order). -/
noncomputable def publish_map_data (log_odds_grid : List (List ℝ)) : List ℤ :=
  (log_odds_grid.map fun row => row.map occupancyOf).flatten

/-- The component calls `SLAMNode.slam_loop` makes on one timer tick. -/
inductive SlamCall where
  | localization_update : SlamCall
  | mapping_update : SlamCall
  | publish_pose : SlamCall
  | publish_map : SlamCall
  | publish_beacons : SlamCall
  | publish_path : SlamCall
  | control_update : SlamCall
deriving DecidableEq

/-- The sequence of component calls the live body of `SLAMNode.slam_loop`
makes on every tick: `self.localization.update_position(...)` followed by
`self.publish_map()`; the `self.map.update(...)`, pose/beacon/path
publishing and control-update calls are commented out in the source. -/
def slam_loop_calls : List SlamCall :=
  [SlamCall.localization_update, SlamCall.publish_map]

/-- The loop body of `SLAMNode.create_line` (Bresenham), with explicit
fuel; the target, the initial coordinate deltas `dx = |x1 - x0|` and
`dy = |y1 - y0|` and the steps `sx, sy` are fixed before the loop, and
each iteration appends `(x0, y0)`, stops on reaching the target, and
otherwise advances `x0` and/or `y0` guarded by the error term. -/
def bresLoop (x1 y1 dx dy sx sy : ℤ) : ℕ → ℤ → ℤ → ℤ → List (ℤ × ℤ)
  | 0, _, _, _ => []
  | fuel + 1, x0, y0, err =>
    if x0 = x1 ∧ y0 = y1 then [(x0, y0)]
    else
      let e2 := 2 * err
      let x0n := if -dy < e2 then x0 + sx else x0
      let err1 := if -dy < e2 then err - dy else err
      let y0n := if e2 < dx then y0 + sy else y0
      let err2 := if e2 < dx then err1 + dx else err1
      (x0, y0) :: bresLoop x1 y1 dx dy sx sy fuel x0n y0n err2

/-- The method `SLAMNode.create_line(x0, y0, x1, y1)`: Bresenham's line from
`(x0, y0)` to `(x1, y1)`.  The Python `while True` loop is given
`dx + dy + 1` iterations of fuel, which theorem `create_line_spec`
shows is enough for the loop to reach its `break`. -/
def create_line (x0 y0 x1 y1 : ℤ) : List (ℤ × ℤ) :=
  let dx := |x1 - x0|
  let dy := |y1 - y0|
  let sx : ℤ := if x0 < x1 then 1 else -1
  let sy : ℤ := if y0 < y1 then 1 else -1
  bresLoop x1 y1 dx dy sx sy (dx + dy + 1).toNat x0 y0 (dx - dy)

/-- A concrete obstacle-free world over the rationals: the boundary of
the repository's `MAP = Map(-10, -10, 10, 10)`. -/
def mapPlain : MapModel ℚ := mkMap (-10) (-10) 10 10 [] []

/-- A concrete world with the repository `MAP`'s obstacle square of
half-width `2.5` centered at `(4, 4)`. -/
def mapObst : MapModel ℚ := mkMap (-10) (-10) 10 10 [⟨3/2, 3/2, 13/2, 13/2⟩] []

/-- A concrete world with a single beacon at `(5, 0)` (the spec's
visibility scenario). -/
def mapBeacon : MapModel ℚ := mkMap (-10) (-10) 10 10 [] [(5, 0)]

/-- A concrete obstacle-free world over the reals, for instantiating the
LiDAR theorem. -/
noncomputable def mapPlainR : MapModel ℝ := mkMap (-10) (-10) 10 10 [] []

/-- A particle-filter pose hypothesis `(x, y, heading)`. -/
abbrev Pose := ℝ × ℝ × ℝ

/-- Modelled from the spec: the particle set maintained by the
`ParticleFilterLocalizer` of `multi_slam/Localization.py` (that module is
not among the given sources; only its caller `SlamNode.py` is).  An
ordered collection of particle poses with their weights, paired by
index. -/
structure ParticleState where
  particles : List Pose
  weights : List ℝ

/-- Modelled from the spec: the predict step (section 4.3, step 1):
every particle's pose is propagated by `control_input * dt` plus a
per-particle position-noise draw; here the Gaussian draws arrive as an
explicit input stream (one pair per particle), and the heading is held
at 0. -/
def pfPredict (dt : ℝ) (control_input : Pose) (noise : List (ℝ × ℝ))
    (particles : List Pose) : List Pose :=
  List.zipWith
    (fun p n => (p.1 + dt * control_input.1 + n.1,
                 p.2.1 + dt * control_input.2.1 + n.2, 0))
    particles noise

/-- Modelled from the spec: the squared Euclidean residual used by the
likelihood. -/
def sqNorm2 (u v : Pt ℝ) : ℝ := (u.1 - v.1) ^ 2 + (u.2 - v.2) ^ 2

/-- Modelled from the spec: the per-observation likelihood term of the
weight step (section 4.3, step 2): a Gaussian density of the residual
between the observed offset and the offset predicted for the
best-matching (nearest) known landmark, bounded below by `floor_val` to
avoid zero weights; when no landmarks are known the weight is left
unchanged (factor 1). -/
noncomputable def pfLikelihood (sigma floor_val : ℝ) (landmarks : List (Pt ℝ))
    (p : Pose) (obs : Pt ℝ) : ℝ :=
  match landmarks with
  | [] => 1
  | l0 :: ls =>
    let predicted := (p.1 + obs.1, p.2.1 + obs.2)
    let nearest := pyMinBy (fun l => sqNorm2 predicted l) l0 ls
    max floor_val (Real.exp (-(sqNorm2 predicted nearest) / (2 * sigma ^ 2)))

/-- Modelled from the spec: the weight step (section 4.3, step 2): each
particle's weight is multiplied by the product of its per-observation
likelihood terms (an empty observation list leaves weights unchanged). -/
noncomputable def pfWeight (sigma floor_val : ℝ) (landmarks : List (Pt ℝ))
    (observations : List (Pt ℝ)) (particles : List Pose) (weights : List ℝ) :
    List ℝ :=
  List.zipWith
    (fun p w =>
      w * observations.foldl (fun acc o => acc * pfLikelihood sigma floor_val landmarks p o) 1)
    particles weights

/-- Modelled from the spec: the normalize step (section 4.3, step 3):
weights are divided by their sum; a zero sum (the degenerate-filter case,
the real code's non-finite sums have no counterpart in exact arithmetic)
resets to the uniform distribution instead of failing. -/
noncomputable def pfNormalize (weights : List ℝ) : List ℝ :=
  let s := weights.sum
  if s = 0 then List.replicate weights.length ((weights.length : ℝ))⁻¹
  else weights.map (· / s)

/-- Modelled from the spec: the estimate step (section 4.3, step 4): the
weighted mean pose (heading forced to 0) and the weighted sample
covariance, returned as an entrywise 3-by-3 matrix function. -/
noncomputable def pfEstimate (particles : List Pose) (weights : List ℝ) :
    Pose × (Fin 3 → Fin 3 → ℝ) :=
  let comp : Fin 3 → Pose → ℝ := fun i p =>
    if i = 0 then p.1 else if i = 1 then p.2.1 else p.2.2
  let mx := (List.zipWith (fun p w => w * p.1) particles weights).sum
  let my := (List.zipWith (fun p w => w * p.2.1) particles weights).sum
  let mean : Pose := (mx, my, 0)
  (mean, fun i j =>
    (List.zipWith
      (fun p w => w * (comp i p - comp i mean) * (comp j p - comp j mean))
      particles weights).sum)

/-- Modelled from the spec: the effective sample size
`1 / (sum of squared weights)`. -/
noncomputable def pfEss (weights : List ℝ) : ℝ := ((weights.map (· ^ 2)).sum)⁻¹

/-- Modelled from the spec: the resample step (section 4.3, step 5): when
the effective sample size falls below half the particle count, `N`
particles are redrawn (the random proportional-to-weight draw is
abstracted as the index-selection function `sel`) and the weights are
reset to uniform; otherwise particles and weights are kept as they
are. -/
noncomputable def pfResample (sel : ℕ → ℕ) (particles : List Pose)
    (weights : List ℝ) : List Pose × List ℝ :=
  if pfEss weights < (particles.length : ℝ) / 2 then
    ((List.range particles.length).map fun k => particles.getD (sel k) (0, 0, 0),
     List.replicate particles.length ((particles.length : ℝ))⁻¹)
  else (particles, weights)

/-- Modelled from the spec: one `update` call of the particle-filter
localizer (section 4.3): predict, weight, normalize, estimate, resample;
the new particle state and the pose/covariance estimate are returned. -/
noncomputable def pfUpdate (dt sigma floor_val : ℝ) (sel : ℕ → ℕ)
    (control_input : Pose) (observations landmarks : List (Pt ℝ))
    (noise : List (ℝ × ℝ)) (s : ParticleState) :
    ParticleState × (Pose × (Fin 3 → Fin 3 → ℝ)) :=
  let ps := pfPredict dt control_input noise s.particles
  let w1 := pfWeight sigma floor_val landmarks observations ps s.weights
  let w2 := pfNormalize w1
  let est := pfEstimate ps w2
  let rs := pfResample sel ps w2
  (⟨rs.1, rs.2⟩, est)

/-! ### Helper lemmas about segment membership -/

theorem between_affine {a m u v t : α} (h : between u v t) :
    between (a + u * m) (a + v * m) (a + t * m) := by
  obtain ⟨h1, h2⟩ := h
  rcases le_total u v with huv | huv
  · rw [min_eq_left huv] at h1
    rw [max_eq_right huv] at h2
    rcases le_total 0 m with hm | hm
    · exact ⟨min_le_iff.mpr (Or.inl (by nlinarith)),
        le_max_iff.mpr (Or.inr (by nlinarith))⟩
    · exact ⟨min_le_iff.mpr (Or.inr (by nlinarith)),
        le_max_iff.mpr (Or.inl (by nlinarith))⟩
  · rw [min_eq_right huv] at h1
    rw [max_eq_left huv] at h2
    rcases le_total 0 m with hm | hm
    · exact ⟨min_le_iff.mpr (Or.inr (by nlinarith)),
        le_max_iff.mpr (Or.inl (by nlinarith))⟩
    · exact ⟨min_le_iff.mpr (Or.inl (by nlinarith)),
        le_max_iff.mpr (Or.inr (by nlinarith))⟩

theorem between_zero_one {t : α} (h0 : 0 ≤ t) (h1 : t ≤ 1) : between (0 : α) 1 t :=
  ⟨by rw [min_eq_left zero_le_one]; exact h0,
   by rw [max_eq_right zero_le_one]; exact h1⟩

theorem onSeg_paff {s : Seg α} {t : α} (h0 : 0 ≤ t) (h1 : t ≤ 1) :
    onSeg (paff s.1 t (pvsub s.2 s.1)) s := by
  refine ⟨?_, ?_, ?_⟩
  · show (s.2.1 - s.1.1) * (s.1.2 + t * (s.2.2 - s.1.2) - s.1.2) -
      (s.2.2 - s.1.2) * (s.1.1 + t * (s.2.1 - s.1.1) - s.1.1) = 0
    ring
  · have h2 := between_affine (a := s.1.1) (m := s.2.1 - s.1.1) (between_zero_one h0 h1)
    have e1 : s.1.1 + (0 : α) * (s.2.1 - s.1.1) = s.1.1 := by ring
    have e2 : s.1.1 + (1 : α) * (s.2.1 - s.1.1) = s.2.1 := by ring
    rw [e1, e2] at h2
    exact h2
  · have h2 := between_affine (a := s.1.2) (m := s.2.2 - s.1.2) (between_zero_one h0 h1)
    have e1 : s.1.2 + (0 : α) * (s.2.2 - s.1.2) = s.1.2 := by ring
    have e2 : s.1.2 + (1 : α) * (s.2.2 - s.1.2) = s.2.2 := by ring
    rw [e1, e2] at h2
    exact h2

theorem onSeg_fst (s : Seg α) : onSeg s.1 s := by
  refine ⟨?_, ⟨min_le_left _ _, le_max_left _ _⟩, ⟨min_le_left _ _, le_max_left _ _⟩⟩
  show (s.2.1 - s.1.1) * (s.1.2 - s.1.2) - (s.2.2 - s.1.2) * (s.1.1 - s.1.1) = 0
  ring

theorem onSeg_snd (s : Seg α) : onSeg s.2 s := by
  refine ⟨?_, ⟨min_le_right _ _, le_max_right _ _⟩, ⟨min_le_right _ _, le_max_right _ _⟩⟩
  show (s.2.1 - s.1.1) * (s.2.2 - s.1.2) - (s.2.2 - s.1.2) * (s.2.1 - s.1.1) = 0
  ring

theorem eq_of_onSeg_degenerate {p : Pt α} {s : Seg α} (hs : s.2 = s.1)
    (h : onSeg p s) : p = s.1 := by
  obtain ⟨-, hx, hy⟩ := h
  rw [hs] at hx hy
  simp only [between, min_self, max_self] at hx hy
  exact Prod.ext (le_antisymm hx.2 hx.1) (le_antisymm hy.2 hy.1)

theorem pvsub_eq_zero_iff {u v : Pt α} : pvsub u v = ((0 : α), (0 : α)) ↔ u = v := by
  constructor
  · intro h
    have h1 := congrArg Prod.fst h
    have h2 := congrArg Prod.snd h
    simp only [pvsub] at h1 h2
    exact Prod.ext (by linarith) (by linarith)
  · intro h; subst h; simp [pvsub]

theorem dotp_self_pos {d : Pt α} (h : d ≠ ((0 : α), (0 : α))) : 0 < dotp d d := by
  rcases d with ⟨dx, dy⟩
  by_cases hx : dx = 0
  · subst hx
    have hy : dy ≠ 0 := fun hy => h (by simp [hy])
    have := mul_self_pos.mpr hy
    simp only [dotp]
    nlinarith
  · have := mul_self_pos.mpr hx
    have h2 := mul_self_nonneg dy
    simp only [dotp]
    nlinarith

theorem paff_proj_eq {E d s : Pt α} (hd : d ≠ ((0 : α), (0 : α)))
    (hcol : cross d s = 0) :
    paff E (dotp s d / dotp d d) d = (E.1 + s.1, E.2 + s.2) := by
  have hden := (dotp_self_pos hd).ne'
  simp only [cross] at hcol
  simp only [dotp] at hden
  refine Prod.ext ?_ ?_
  · show E.1 + (s.1 * d.1 + s.2 * d.2) / (d.1 * d.1 + d.2 * d.2) * d.1 = E.1 + s.1
    field_simp
    linear_combination d.2 * hcol
  · show E.2 + (s.1 * d.1 + s.2 * d.2) / (d.1 * d.1 + d.2 * d.2) * d.2 = E.2 + s.2
    field_simp
    linear_combination (-d.1) * hcol

theorem transversal_point_eq {e q : Seg α}
    (hr : cross (pvsub e.2 e.1) (pvsub q.2 q.1) ≠ 0) :
    paff e.1
      (cross (pvsub q.1 e.1) (pvsub q.2 q.1) / cross (pvsub e.2 e.1) (pvsub q.2 q.1))
      (pvsub e.2 e.1) =
    paff q.1
      (cross (pvsub q.1 e.1) (pvsub e.2 e.1) / cross (pvsub e.2 e.1) (pvsub q.2 q.1))
      (pvsub q.2 q.1) := by
  have hr' : (e.2.1 - e.1.1) * (q.2.2 - q.1.2) - (e.2.2 - e.1.2) * (q.2.1 - q.1.1) ≠ 0 := by
    simpa [cross, pvsub] using hr
  refine Prod.ext ?_ ?_
  · show e.1.1 + ((q.1.1 - e.1.1) * (q.2.2 - q.1.2) - (q.1.2 - e.1.2) * (q.2.1 - q.1.1)) /
        ((e.2.1 - e.1.1) * (q.2.2 - q.1.2) - (e.2.2 - e.1.2) * (q.2.1 - q.1.1)) *
        (e.2.1 - e.1.1) =
      q.1.1 + ((q.1.1 - e.1.1) * (e.2.2 - e.1.2) - (q.1.2 - e.1.2) * (e.2.1 - e.1.1)) /
        ((e.2.1 - e.1.1) * (q.2.2 - q.1.2) - (e.2.2 - e.1.2) * (q.2.1 - q.1.1)) *
        (q.2.1 - q.1.1)
    field_simp
    ring
  · show e.1.2 + ((q.1.1 - e.1.1) * (q.2.2 - q.1.2) - (q.1.2 - e.1.2) * (q.2.1 - q.1.1)) /
        ((e.2.1 - e.1.1) * (q.2.2 - q.1.2) - (e.2.2 - e.1.2) * (q.2.1 - q.1.1)) *
        (e.2.2 - e.1.2) =
      q.1.2 + ((q.1.1 - e.1.1) * (e.2.2 - e.1.2) - (q.1.2 - e.1.2) * (e.2.1 - e.1.1)) /
        ((e.2.1 - e.1.1) * (q.2.2 - q.1.2) - (e.2.2 - e.1.2) * (q.2.1 - q.1.1)) *
        (q.2.2 - q.1.2)
    field_simp
    ring

theorem onSeg_collinear_param {e1 d1 : Pt α} {q : Seg α} {u0 u1 v : α}
    (hq1 : q.1 = paff e1 u0 d1) (hq2 : q.2 = paff e1 u1 d1)
    (hv : between u0 u1 v) : onSeg (paff e1 v d1) q := by
  refine ⟨?_, ?_, ?_⟩
  · rw [hq1, hq2]
    simp only [cross, pvsub, paff]
    ring
  · rw [hq1, hq2]
    simpa only [paff] using between_affine (a := e1.1) (m := d1.1) hv
  · rw [hq1, hq2]
    simpa only [paff] using between_affine (a := e1.2) (m := d1.2) hv

theorem segSegRep_sound {e q : Seg α} {p : Pt α} (hp : p ∈ segSegRep e q) :
    onSeg p e ∧ onSeg p q := by
  simp only [segSegRep] at hp
  by_cases hd1 : pvsub e.2 e.1 = ((0 : α), (0 : α))
  · rw [if_pos hd1] at hp
    by_cases hd2 : pvsub q.2 q.1 = ((0 : α), (0 : α))
    · rw [if_pos hd2] at hp
      by_cases heq : e.1 = q.1
      · rw [if_pos heq] at hp
        simp only [List.mem_singleton] at hp
        subst hp
        exact ⟨onSeg_fst e, heq ▸ onSeg_fst q⟩
      · rw [if_neg heq] at hp
        exact absurd hp (List.not_mem_nil p)
    · rw [if_neg hd2] at hp
      by_cases hone : onSeg e.1 q
      · rw [if_pos hone] at hp
        simp only [List.mem_singleton] at hp
        subst hp
        exact ⟨onSeg_fst e, hone⟩
      · rw [if_neg hone] at hp
        exact absurd hp (List.not_mem_nil p)
  · rw [if_neg hd1] at hp
    by_cases hd2 : pvsub q.2 q.1 = ((0 : α), (0 : α))
    · rw [if_pos hd2] at hp
      by_cases honq : onSeg q.1 e
      · rw [if_pos honq] at hp
        simp only [List.mem_singleton] at hp
        subst hp
        exact ⟨honq, onSeg_fst q⟩
      · rw [if_neg honq] at hp
        exact absurd hp (List.not_mem_nil p)
    · rw [if_neg hd2] at hp
      by_cases hr : cross (pvsub e.2 e.1) (pvsub q.2 q.1) = 0
      · rw [if_pos hr] at hp
        by_cases hcol : cross (pvsub e.2 e.1) (pvsub q.1 e.1) = 0
        · rw [if_pos hcol] at hp
          have hq1 : paff e.1
              (dotp (pvsub q.1 e.1) (pvsub e.2 e.1) /
                dotp (pvsub e.2 e.1) (pvsub e.2 e.1)) (pvsub e.2 e.1) = q.1 := by
            rw [paff_proj_eq hd1 hcol]
            refine Prod.ext ?_ ?_ <;> simp only [pvsub] <;> ring
          have hcol2 : cross (pvsub e.2 e.1) (pvsub q.2 e.1) = 0 := by
            simp only [cross, pvsub] at hcol hr ⊢
            linear_combination hcol + hr
          have hq2 : paff e.1
              (dotp (pvsub q.2 e.1) (pvsub e.2 e.1) /
                dotp (pvsub e.2 e.1) (pvsub e.2 e.1)) (pvsub e.2 e.1) = q.2 := by
            rw [paff_proj_eq hd1 hcol2]
            refine Prod.ext ?_ ?_ <;> simp only [pvsub] <;> ring
          set u0 := dotp (pvsub q.1 e.1) (pvsub e.2 e.1) /
            dotp (pvsub e.2 e.1) (pvsub e.2 e.1) with hu0def
          set u1 := dotp (pvsub q.2 e.1) (pvsub e.2 e.1) /
            dotp (pvsub e.2 e.1) (pvsub e.2 e.1) with hu1def
          by_cases hlt : max 0 (min u0 u1) > min 1 (max u0 u1)
          · rw [if_pos hlt] at hp
            exact absurd hp (List.not_mem_nil p)
          · rw [if_neg hlt] at hp
            push_neg at hlt
            by_cases heqlh : max 0 (min u0 u1) = min 1 (max u0 u1)
            · rw [if_pos heqlh] at hp
              simp only [List.mem_singleton] at hp
              subst hp
              refine ⟨onSeg_paff (le_max_left _ _) ?_,
                onSeg_collinear_param hq1.symm hq2.symm ⟨le_max_right _ _, ?_⟩⟩
              · rw [heqlh]; exact min_le_left _ _
              · rw [heqlh]; exact min_le_right _ _
            · rw [if_neg heqlh] at hp
              simp only [List.mem_cons, List.not_mem_nil, or_false] at hp
              rcases hp with hp | hp <;> subst hp
              · exact ⟨onSeg_paff (le_max_left _ _) (le_trans hlt (min_le_left _ _)),
                  onSeg_collinear_param hq1.symm hq2.symm
                    ⟨le_max_right _ _, le_trans hlt (min_le_right _ _)⟩⟩
              · exact ⟨onSeg_paff (le_trans (le_max_left _ _) hlt) (min_le_left _ _),
                  onSeg_collinear_param hq1.symm hq2.symm
                    ⟨le_trans (le_max_right _ _) hlt, min_le_right _ _⟩⟩
        · rw [if_neg hcol] at hp
          exact absurd hp (List.not_mem_nil p)
      · rw [if_neg hr] at hp
        by_cases hcnd : 0 ≤ cross (pvsub q.1 e.1) (pvsub q.2 q.1) /
              cross (pvsub e.2 e.1) (pvsub q.2 q.1) ∧
            cross (pvsub q.1 e.1) (pvsub q.2 q.1) /
              cross (pvsub e.2 e.1) (pvsub q.2 q.1) ≤ 1 ∧
            0 ≤ cross (pvsub q.1 e.1) (pvsub e.2 e.1) /
              cross (pvsub e.2 e.1) (pvsub q.2 q.1) ∧
            cross (pvsub q.1 e.1) (pvsub e.2 e.1) /
              cross (pvsub e.2 e.1) (pvsub q.2 q.1) ≤ 1
        · rw [if_pos hcnd] at hp
          simp only [List.mem_singleton] at hp
          subst hp
          obtain ⟨ht0, ht1, hv0, hv1⟩ := hcnd
          refine ⟨onSeg_paff ht0 ht1, ?_⟩
          rw [transversal_point_eq hr]
          exact onSeg_paff hv0 hv1
        · rw [if_neg hcnd] at hp
          exact absurd hp (List.not_mem_nil p)

theorem param_bounds {A B x : α} (hAB : B - A ≠ 0) (h : between A B x) :
    0 ≤ (x - A) / (B - A) ∧ (x - A) / (B - A) ≤ 1 := by
  obtain ⟨h1, h2⟩ := h
  rcases hAB.lt_or_lt with hlt | hlt
  · have hBA : B ≤ A := by linarith
    rw [min_eq_right hBA] at h1
    rw [max_eq_left hBA] at h2
    constructor
    · rw [le_div_iff_of_neg hlt]; linarith
    · rw [div_le_iff_of_neg hlt]; linarith
  · have hAB' : A ≤ B := by linarith
    rw [min_eq_left hAB'] at h1
    rw [max_eq_right hAB'] at h2
    exact ⟨div_nonneg (by linarith) hlt.le, (div_le_one hlt).mpr (by linarith)⟩

theorem exists_param_of_onSeg {p : Pt α} {s : Seg α}
    (hd : pvsub s.2 s.1 ≠ ((0 : α), (0 : α))) (h : onSeg p s) :
    ∃ t, 0 ≤ t ∧ t ≤ 1 ∧ p = paff s.1 t (pvsub s.2 s.1) := by
  obtain ⟨hc, hx, hy⟩ := h
  have hc' : (s.2.1 - s.1.1) * (p.2 - s.1.2) - (s.2.2 - s.1.2) * (p.1 - s.1.1) = 0 := hc
  by_cases hdx : s.2.1 - s.1.1 = 0
  · have hdy : s.2.2 - s.1.2 ≠ 0 := by
      intro hdy
      exact hd (Prod.ext hdx hdy)
    obtain ⟨hb0, hb1⟩ := param_bounds hdy hy
    refine ⟨(p.2 - s.1.2) / (s.2.2 - s.1.2), hb0, hb1, ?_⟩
    have hx1 : p.1 = s.1.1 := by
      have hs21 : s.2.1 = s.1.1 := by linarith
      rw [hs21] at hx
      simp only [between, min_self, max_self] at hx
      linarith [hx.1, hx.2]
    refine Prod.ext ?_ ?_
    · show p.1 = s.1.1 + (p.2 - s.1.2) / (s.2.2 - s.1.2) * (s.2.1 - s.1.1)
      rw [hdx, hx1]; ring
    · show p.2 = s.1.2 + (p.2 - s.1.2) / (s.2.2 - s.1.2) * (s.2.2 - s.1.2)
      field_simp
  · obtain ⟨hb0, hb1⟩ := param_bounds hdx hx
    refine ⟨(p.1 - s.1.1) / (s.2.1 - s.1.1), hb0, hb1, ?_⟩
    refine Prod.ext ?_ ?_
    · show p.1 = s.1.1 + (p.1 - s.1.1) / (s.2.1 - s.1.1) * (s.2.1 - s.1.1)
      field_simp
    · show p.2 = s.1.2 + (p.1 - s.1.1) / (s.2.1 - s.1.1) * (s.2.2 - s.1.2)
      field_simp
      linear_combination hc'

theorem segSegRep_mem_fst {e q : Seg α} (h : onSeg q.1 e) : q.1 ∈ segSegRep e q := by
  simp only [segSegRep]
  by_cases hd1 : pvsub e.2 e.1 = ((0 : α), (0 : α))
  · rw [if_pos hd1]
    have hq1e : q.1 = e.1 := eq_of_onSeg_degenerate (pvsub_eq_zero_iff.mp hd1) h
    by_cases hd2 : pvsub q.2 q.1 = ((0 : α), (0 : α))
    · rw [if_pos hd2, if_pos hq1e.symm]
      simp [hq1e]
    · rw [if_neg hd2]
      have hone : onSeg e.1 q := by rw [← hq1e]; exact onSeg_fst q
      rw [if_pos hone]
      simp [hq1e]
  · rw [if_neg hd1]
    obtain ⟨t, ht0, ht1, hrepr⟩ := exists_param_of_onSeg hd1 h
    have hq1x : q.1.1 = e.1.1 + t * (e.2.1 - e.1.1) := by rw [hrepr]; rfl
    have hq1y : q.1.2 = e.1.2 + t * (e.2.2 - e.1.2) := by rw [hrepr]; rfl
    by_cases hd2 : pvsub q.2 q.1 = ((0 : α), (0 : α))
    · rw [if_pos hd2, if_pos h]
      simp
    · rw [if_neg hd2]
      by_cases hr : cross (pvsub e.2 e.1) (pvsub q.2 q.1) = 0
      · rw [if_pos hr]
        have hcol : cross (pvsub e.2 e.1) (pvsub q.1 e.1) = 0 := by
          simp only [cross, pvsub]
          linear_combination (e.2.1 - e.1.1) * hq1y - (e.2.2 - e.1.2) * hq1x
        rw [if_pos hcol]
        have hden := (dotp_self_pos hd1).ne'
        have hden' : (e.2.1 - e.1.1) * (e.2.1 - e.1.1) + (e.2.2 - e.1.2) * (e.2.2 - e.1.2) ≠ 0 := by
          simpa [dotp, pvsub] using hden
        have hu0 : dotp (pvsub q.1 e.1) (pvsub e.2 e.1) /
            dotp (pvsub e.2 e.1) (pvsub e.2 e.1) = t := by
          simp only [dotp, pvsub]
          rw [div_eq_iff hden']
          linear_combination (e.2.1 - e.1.1) * hq1x + (e.2.2 - e.1.2) * hq1y
        rw [hu0]
        set u1 := dotp (pvsub q.2 e.1) (pvsub e.2 e.1) /
          dotp (pvsub e.2 e.1) (pvsub e.2 e.1) with hu1def
        rcases le_total t u1 with hcase | hcase
        · have hlo : max 0 (min t u1) = t := by
            rw [min_eq_left hcase]; exact max_eq_right ht0
          have hhi_ge : t ≤ min 1 (max t u1) := le_min ht1 (le_max_left _ _)
          rw [hlo, if_neg (not_lt.mpr hhi_ge)]
          by_cases heq : t = min 1 (max t u1)
          · rw [if_pos heq, hrepr]
            exact List.mem_singleton.mpr rfl
          · rw [if_neg heq, hrepr]
            exact List.mem_cons_self _ _
        · have hhi : min 1 (max t u1) = t := by
            rw [max_eq_left hcase]; exact min_eq_right ht1
          have hlo_le : max 0 (min t u1) ≤ t := max_le ht0 (min_le_left _ _)
          rw [hhi, if_neg (not_lt.mpr hlo_le)]
          by_cases heq : max 0 (min t u1) = t
          · rw [if_pos heq, heq, hrepr]
            exact List.mem_singleton.mpr rfl
          · rw [if_neg heq, hrepr]
            exact List.mem_cons_of_mem _ (List.mem_singleton.mpr rfl)
      · rw [if_neg hr]
        have htval : cross (pvsub q.1 e.1) (pvsub q.2 q.1) /
            cross (pvsub e.2 e.1) (pvsub q.2 q.1) = t := by
          have hnum : cross (pvsub q.1 e.1) (pvsub q.2 q.1) =
              t * cross (pvsub e.2 e.1) (pvsub q.2 q.1) := by
            simp only [cross, pvsub]
            linear_combination (q.2.2 - q.1.2) * hq1x - (q.2.1 - q.1.1) * hq1y
          rw [hnum, mul_div_assoc, div_self hr, mul_one]
        have huval : cross (pvsub q.1 e.1) (pvsub e.2 e.1) /
            cross (pvsub e.2 e.1) (pvsub q.2 q.1) = 0 := by
          have hnum : cross (pvsub q.1 e.1) (pvsub e.2 e.1) = 0 := by
            simp only [cross, pvsub]
            linear_combination (e.2.2 - e.1.2) * hq1x - (e.2.1 - e.1.1) * hq1y
          rw [hnum, zero_div]
        rw [htval, huval,
          if_pos (⟨ht0, ht1, le_refl (0 : α), zero_le_one⟩ :
            0 ≤ t ∧ t ≤ 1 ∧ (0 : α) ≤ 0 ∧ (0 : α) ≤ 1), hrepr]
        exact List.mem_singleton.mpr rfl

theorem segSegRep_mem_snd {e q : Seg α} (h : onSeg q.2 e) : q.2 ∈ segSegRep e q := by
  simp only [segSegRep]
  by_cases hd1 : pvsub e.2 e.1 = ((0 : α), (0 : α))
  · rw [if_pos hd1]
    have hq2e : q.2 = e.1 := eq_of_onSeg_degenerate (pvsub_eq_zero_iff.mp hd1) h
    by_cases hd2 : pvsub q.2 q.1 = ((0 : α), (0 : α))
    · have hq21 : q.2 = q.1 := pvsub_eq_zero_iff.mp hd2
      rw [if_pos hd2, if_pos (hq2e.symm.trans hq21)]
      simp [hq2e]
    · rw [if_neg hd2]
      have hone : onSeg e.1 q := by rw [← hq2e]; exact onSeg_snd q
      rw [if_pos hone]
      simp [hq2e]
  · rw [if_neg hd1]
    obtain ⟨t, ht0, ht1, hrepr⟩ := exists_param_of_onSeg hd1 h
    have hq2x : q.2.1 = e.1.1 + t * (e.2.1 - e.1.1) := by rw [hrepr]; rfl
    have hq2y : q.2.2 = e.1.2 + t * (e.2.2 - e.1.2) := by rw [hrepr]; rfl
    by_cases hd2 : pvsub q.2 q.1 = ((0 : α), (0 : α))
    · have hq21 : q.2 = q.1 := pvsub_eq_zero_iff.mp hd2
      rw [if_pos hd2, if_pos (show onSeg q.1 e from hq21 ▸ h)]
      simp [hq21]
    · rw [if_neg hd2]
      by_cases hr : cross (pvsub e.2 e.1) (pvsub q.2 q.1) = 0
      · rw [if_pos hr]
        have hr' : (e.2.1 - e.1.1) * (q.2.2 - q.1.2) - (e.2.2 - e.1.2) * (q.2.1 - q.1.1) = 0 := hr
        have hcol : cross (pvsub e.2 e.1) (pvsub q.1 e.1) = 0 := by
          simp only [cross, pvsub]
          linear_combination (e.2.1 - e.1.1) * hq2y - (e.2.2 - e.1.2) * hq2x - hr'
        rw [if_pos hcol]
        have hden := (dotp_self_pos hd1).ne'
        have hden' : (e.2.1 - e.1.1) * (e.2.1 - e.1.1) + (e.2.2 - e.1.2) * (e.2.2 - e.1.2) ≠ 0 := by
          simpa [dotp, pvsub] using hden
        have hu1 : dotp (pvsub q.2 e.1) (pvsub e.2 e.1) /
            dotp (pvsub e.2 e.1) (pvsub e.2 e.1) = t := by
          simp only [dotp, pvsub]
          rw [div_eq_iff hden']
          linear_combination (e.2.1 - e.1.1) * hq2x + (e.2.2 - e.1.2) * hq2y
        rw [hu1]
        set u0 := dotp (pvsub q.1 e.1) (pvsub e.2 e.1) /
          dotp (pvsub e.2 e.1) (pvsub e.2 e.1) with hu0def
        rcases le_total u0 t with hcase | hcase
        · have hhi : min 1 (max u0 t) = t := by
            rw [max_eq_right hcase]; exact min_eq_right ht1
          have hlo_le : max 0 (min u0 t) ≤ t := max_le ht0 (min_le_right _ _)
          rw [hhi, if_neg (not_lt.mpr hlo_le)]
          by_cases heq : max 0 (min u0 t) = t
          · rw [if_pos heq, heq, hrepr]
            exact List.mem_singleton.mpr rfl
          · rw [if_neg heq, hrepr]
            exact List.mem_cons_of_mem _ (List.mem_singleton.mpr rfl)
        · have hlo : max 0 (min u0 t) = t := by
            rw [min_eq_right hcase]; exact max_eq_right ht0
          have hhi_ge : t ≤ min 1 (max u0 t) := le_min ht1 (le_max_right _ _)
          rw [hlo, if_neg (not_lt.mpr hhi_ge)]
          by_cases heq : t = min 1 (max u0 t)
          · rw [if_pos heq, hrepr]
            exact List.mem_singleton.mpr rfl
          · rw [if_neg heq, hrepr]
            exact List.mem_cons_self _ _
      · rw [if_neg hr]
        have htval : cross (pvsub q.1 e.1) (pvsub q.2 q.1) /
            cross (pvsub e.2 e.1) (pvsub q.2 q.1) = t := by
          have hnum : cross (pvsub q.1 e.1) (pvsub q.2 q.1) =
              t * cross (pvsub e.2 e.1) (pvsub q.2 q.1) := by
            simp only [cross, pvsub]
            linear_combination (q.2.2 - q.1.2) * hq2x - (q.2.1 - q.1.1) * hq2y
          rw [hnum, mul_div_assoc, div_self hr, mul_one]
        have huval : cross (pvsub q.1 e.1) (pvsub e.2 e.1) /
            cross (pvsub e.2 e.1) (pvsub q.2 q.1) = 1 := by
          have hnum : cross (pvsub q.1 e.1) (pvsub e.2 e.1) =
              cross (pvsub e.2 e.1) (pvsub q.2 q.1) := by
            simp only [cross, pvsub]
            linear_combination (e.2.2 - e.1.2) * hq2x - (e.2.1 - e.1.1) * hq2y
          rw [hnum, div_self hr]
        rw [htval, huval,
          if_pos (⟨ht0, ht1, zero_le_one, le_refl (1 : α)⟩ :
            0 ≤ t ∧ t ≤ 1 ∧ (0 : α) ≤ 1 ∧ (1 : α) ≤ 1), hrepr]
        exact List.mem_singleton.mpr rfl

theorem paff_zero (P d : Pt α) : paff P 0 d = P :=
  Prod.ext (by show P.1 + 0 * d.1 = P.1; ring) (by show P.2 + 0 * d.2 = P.2; ring)

theorem paff_one_pvsub (q : Seg α) : paff q.1 1 (pvsub q.2 q.1) = q.2 :=
  Prod.ext (by show q.1.1 + 1 * (q.2.1 - q.1.1) = q.2.1; ring)
    (by show q.1.2 + 1 * (q.2.2 - q.1.2) = q.2.2; ring)

theorem clip1D_sound {p d lo hi a b t : α} (h : clip1D p d lo hi = some (a, b))
    (hat : a ≤ t) (htb : t ≤ b) : lo ≤ p + t * d ∧ p + t * d ≤ hi := by
  unfold clip1D at h
  split_ifs at h with hd hin hpos
  · rw [hd]
    obtain ⟨h1, h2⟩ := hin
    constructor <;> nlinarith
  · rcases Option.some.injEq _ _ ▸ h with h'
    obtain ⟨ha, hb⟩ := Prod.mk.injEq _ _ _ _ ▸ h'
    subst ha hb
    rw [div_le_iff₀ hpos] at hat
    rw [le_div_iff₀ hpos] at htb
    constructor <;> linarith
  · have hneg : d < 0 := lt_of_le_of_ne (not_lt.mp hpos) hd
    rcases Option.some.injEq _ _ ▸ h with h'
    obtain ⟨ha, hb⟩ := Prod.mk.injEq _ _ _ _ ▸ h'
    subst ha hb
    rw [div_le_iff_of_neg hneg] at hat
    rw [le_div_iff_of_neg hneg] at htb
    constructor <;> linarith

theorem clip1D_left {p d lo hi : α} (h1 : lo ≤ p) (h2 : p ≤ hi) :
    ∃ a b, clip1D p d lo hi = some (a, b) ∧ a ≤ 0 ∧ 0 ≤ b := by
  unfold clip1D
  by_cases hd : d = 0
  · exact ⟨0, 1, by rw [if_pos hd, if_pos ⟨h1, h2⟩], le_refl 0, zero_le_one⟩
  · rcases (lt_or_gt_of_ne hd) with hneg | hpos
    · refine ⟨(hi - p) / d, (lo - p) / d,
        by rw [if_neg hd, if_neg (not_lt.mpr hneg.le)], ?_, ?_⟩
      · rw [div_nonpos_iff]; left; constructor <;> linarith
      · rw [le_div_iff_of_neg hneg]; linarith
    · refine ⟨(lo - p) / d, (hi - p) / d, by rw [if_neg hd, if_pos hpos], ?_, ?_⟩
      · rw [div_nonpos_iff]; right; constructor <;> linarith
      · exact div_nonneg (by linarith) hpos.le

theorem clip1D_right {p d lo hi : α} (h1 : lo ≤ p + d) (h2 : p + d ≤ hi) :
    ∃ a b, clip1D p d lo hi = some (a, b) ∧ a ≤ 1 ∧ 1 ≤ b := by
  unfold clip1D
  by_cases hd : d = 0
  · rw [hd, add_zero] at h1 h2
    exact ⟨0, 1, by rw [if_pos hd, if_pos ⟨h1, h2⟩], zero_le_one, le_refl 1⟩
  · rcases (lt_or_gt_of_ne hd) with hneg | hpos
    · refine ⟨(hi - p) / d, (lo - p) / d,
        by rw [if_neg hd, if_neg (not_lt.mpr hneg.le)], ?_, ?_⟩
      · rw [div_le_iff_of_neg hneg]; linarith
      · rw [le_div_iff_of_neg hneg]; linarith
    · refine ⟨(lo - p) / d, (hi - p) / d, by rw [if_neg hd, if_pos hpos], ?_, ?_⟩
      · rw [div_le_iff₀ hpos]; linarith
      · rw [le_div_iff₀ hpos]; linarith

theorem rectSegRep_sound {r : Rect α} {q : Seg α} {p : Pt α}
    (hp : p ∈ rectSegRep r q) : inRect p r ∧ onSeg p q := by
  simp only [rectSegRep] at hp
  split at hp
  case _ a1 b1 a2 b2 heq1 heq2 =>
    by_cases hgt : max 0 (max a1 a2) > min 1 (min b1 b2)
    · rw [if_pos hgt] at hp
      exact absurd hp (List.not_mem_nil p)
    · rw [if_neg hgt] at hp
      push_neg at hgt
      have ht00 : (0 : α) ≤ max 0 (max a1 a2) := le_max_left _ _
      have ht11 : min 1 (min b1 b2) ≤ 1 := min_le_left _ _
      have hbound : ∀ t, max 0 (max a1 a2) ≤ t → t ≤ min 1 (min b1 b2) →
          inRect (paff q.1 t (pvsub q.2 q.1)) r := by
        intro t hta htb
        have hx := clip1D_sound heq1
          (((le_max_left a1 a2).trans (le_max_right 0 _)).trans hta)
          (htb.trans ((min_le_right 1 _).trans (min_le_left b1 b2)))
        have hy := clip1D_sound heq2
          (((le_max_right a1 a2).trans (le_max_right 0 _)).trans hta)
          (htb.trans ((min_le_right 1 _).trans (min_le_right b1 b2)))
        exact ⟨hx.1, hx.2, hy.1, hy.2⟩
      by_cases heq : max 0 (max a1 a2) = min 1 (min b1 b2)
      · rw [if_pos heq] at hp
        simp only [List.mem_singleton] at hp
        subst hp
        exact ⟨hbound _ (le_refl _) (le_of_eq heq),
          onSeg_paff ht00 ((le_of_eq heq).trans ht11)⟩
      · rw [if_neg heq] at hp
        simp only [List.mem_cons, List.not_mem_nil, or_false] at hp
        rcases hp with hp | hp <;> subst hp
        · exact ⟨hbound _ (le_refl _) hgt, onSeg_paff ht00 (hgt.trans ht11)⟩
        · exact ⟨hbound _ hgt (le_refl _), onSeg_paff (ht00.trans hgt) ht11⟩
  case _ h =>
    exact absurd hp (List.not_mem_nil p)

theorem rectSegRep_mem_fst {r : Rect α} {q : Seg α} (h : inRect q.1 r) :
    q.1 ∈ rectSegRep r q := by
  obtain ⟨hx1, hx2, hy1, hy2⟩ := h
  obtain ⟨a1, b1, heq1, ha1, hb1⟩ := clip1D_left (d := (pvsub q.2 q.1).1) hx1 hx2
  obtain ⟨a2, b2, heq2, ha2, hb2⟩ := clip1D_left (d := (pvsub q.2 q.1).2) hy1 hy2
  simp only [rectSegRep, heq1, heq2]
  have ht0 : max 0 (max a1 a2) = 0 := max_eq_left (max_le ha1 ha2)
  have ht1 : (0 : α) ≤ min 1 (min b1 b2) := le_min zero_le_one (le_min hb1 hb2)
  rw [ht0, if_neg (not_lt.mpr ht1)]
  by_cases heq : (0 : α) = min 1 (min b1 b2)
  · rw [if_pos heq, paff_zero]
    exact List.mem_singleton.mpr rfl
  · rw [if_neg heq, paff_zero]
    exact List.mem_cons_self _ _

theorem rectSegRep_mem_snd {r : Rect α} {q : Seg α} (h : inRect q.2 r) :
    q.2 ∈ rectSegRep r q := by
  obtain ⟨hx1, hx2, hy1, hy2⟩ := h
  have hex : q.1.1 + (pvsub q.2 q.1).1 = q.2.1 := by
    show q.1.1 + (q.2.1 - q.1.1) = q.2.1; ring
  have hey : q.1.2 + (pvsub q.2 q.1).2 = q.2.2 := by
    show q.1.2 + (q.2.2 - q.1.2) = q.2.2; ring
  obtain ⟨a1, b1, heq1, ha1, hb1⟩ :=
    clip1D_right (show r.xmin ≤ q.1.1 + (pvsub q.2 q.1).1 from hex.symm ▸ hx1)
      (show q.1.1 + (pvsub q.2 q.1).1 ≤ r.xmax from hex.symm ▸ hx2)
  obtain ⟨a2, b2, heq2, ha2, hb2⟩ :=
    clip1D_right (show r.ymin ≤ q.1.2 + (pvsub q.2 q.1).2 from hey.symm ▸ hy1)
      (show q.1.2 + (pvsub q.2 q.1).2 ≤ r.ymax from hey.symm ▸ hy2)
  simp only [rectSegRep, heq1, heq2]
  have ht1 : min 1 (min b1 b2) = 1 := min_eq_left (le_min hb1 hb2)
  have ht0 : max 0 (max a1 a2) ≤ 1 := max_le zero_le_one (max_le ha1 ha2)
  rw [ht1, if_neg (not_lt.mpr ht0)]
  by_cases heq : max 0 (max a1 a2) = 1
  · rw [if_pos heq, heq, paff_one_pvsub]
    exact List.mem_singleton.mpr rfl
  · rw [if_neg heq, paff_one_pvsub]
    exact List.mem_cons_of_mem _ (List.mem_singleton.mpr rfl)

theorem between_bounds {a b x : α} (hab : a ≤ b) (h : between a b x) :
    a ≤ x ∧ x ≤ b :=
  ⟨(min_eq_left hab) ▸ h.1, (max_eq_right hab) ▸ h.2⟩

theorem between_self_eq {a x : α} (h : between a a x) : x = a := by
  obtain ⟨h1, h2⟩ := h
  rw [min_self] at h1
  rw [max_self] at h2
  exact le_antisymm h2 h1

theorem inRect_of_onRectEdge {p : Pt α} {r : Rect α}
    (hwf : r.xmin ≤ r.xmax ∧ r.ymin ≤ r.ymax) (h : onRectEdge p r) :
    inRect p r := by
  obtain ⟨hwx, hwy⟩ := hwf
  obtain ⟨e, he, hon⟩ := h
  simp only [rectEdges, List.mem_cons, List.not_mem_nil, or_false] at he
  rcases he with he | he | he | he <;> subst he <;> obtain ⟨-, hbx, hby⟩ := hon
  · obtain ⟨h1, h2⟩ := between_bounds hwx hbx
    have h3 := between_self_eq hby
    exact ⟨h1, h2, h3.ge, h3.le.trans hwy⟩
  · have h3 := between_self_eq hbx
    obtain ⟨h1, h2⟩ := between_bounds hwy hby
    exact ⟨hwx.trans h3.ge, h3.le, h1, h2⟩
  · obtain ⟨h1, h2⟩ := between_bounds hwx (by rwa [between, min_comm, max_comm] at hbx)
    have h3 := between_self_eq hby
    exact ⟨h1, h2, hwy.trans h3.ge, h3.le⟩
  · have h3 := between_self_eq hbx
    obtain ⟨h1, h2⟩ := between_bounds hwy (by rwa [between, min_comm, max_comm] at hby)
    exact ⟨h3.ge, h3.le.trans hwx, h1, h2⟩

theorem intersections_sound {m : MapModel α} {q : Seg α} {p : Pt α}
    (hp : p ∈ intersections m q) :
    (∃ e ∈ m.boundary, onSeg p e ∧ onSeg p q) ∨
      (∃ r ∈ m.obstacles, inRect p r ∧ onSeg p q) := by
  unfold intersections at hp
  rcases List.mem_append.mp hp with hb | ho
  · obtain ⟨e, he, hpe⟩ := List.mem_flatMap.mp hb
    obtain ⟨h1, h2⟩ := segSegRep_sound hpe
    exact Or.inl ⟨e, he, h1, h2⟩
  · obtain ⟨r, hr, hpr⟩ := List.mem_flatMap.mp ho
    obtain ⟨h1, h2⟩ := rectSegRep_sound hpr
    exact Or.inr ⟨r, hr, h1, h2⟩

/-! ### C7: queries disjoint from boundary and obstacles intersect nothing -/

/-- C7: for every query segment that is (pointwise) disjoint from the
boundary ring and from every (filled) obstacle, `Map.intersections`
returns the empty list. -/
theorem intersections_disjoint_empty (m : MapModel α) (q : Seg α)
    (h : ∀ p : Pt α, onSeg p q →
      (∀ e ∈ m.boundary, ¬ onSeg p e) ∧ (∀ r ∈ m.obstacles, ¬ inRect p r)) :
    intersections m q = [] := by
  rw [List.eq_nil_iff_forall_not_mem]
  intro p hp
  rcases intersections_sound hp with ⟨e, he, hpe, hpq⟩ | ⟨r, hr, hpr, hpq⟩
  · exact (h p hpq).1 e he hpe
  · exact (h p hpq).2 r hr hpr

/-- Witness for C7, at the obstacle-free `(-10,-10)-(10,10)` world and the
query segment from `(0,0)` to `(1,0)`. -/
theorem intersections_disjoint_empty_witness :
    intersections mapPlain ((0, 0), (1, 0)) = [] := by
  refine intersections_disjoint_empty mapPlain ((0, 0), (1, 0)) ?_
  rintro ⟨x, y⟩ ⟨hc, hx, hy⟩
  have hy0 : y = 0 := by
    simpa [cross, pvsub] using hc
  have hx0 : 0 ≤ x ∧ x ≤ 1 := by
    constructor
    · simpa using hx.1
    · simpa using hx.2
  constructor
  · intro e he
    simp only [mapPlain, mkMap, List.mem_cons, List.not_mem_nil, or_false] at he
    rcases he with he | he | he | he <;> subst he <;>
      rintro ⟨-, hbx, hby⟩ <;>
      simp only [between, min_self, max_self] at hbx hby
    · obtain ⟨h1, h2⟩ := hby
      linarith
    · obtain ⟨h1, h2⟩ := hbx
      linarith
    · obtain ⟨h1, h2⟩ := hby
      linarith
    · obtain ⟨h1, h2⟩ := hbx
      linarith
  · intro r hr
    simp [mapPlain, mkMap] at hr

/-! ### C6: degenerate queries and on-edge query points -/

/-- C6, counterexample to the claim as stated: the degenerate (zero-length)
query at `(4, 4)`, which lies inside the obstacle square centered at
`(4, 4)` with half-width `2.5`, does NOT give an empty intersection list:
the obstacle's intersection with the zero-length query is the point
itself, which is extracted. -/
theorem intersections_degenerate_claim_false :
    intersections mapObst ((4, 4), (4, 4)) ≠ [] := by
  have hval : intersections mapObst ((4, 4), (4, 4)) = [(4, 4), (4, 4)] := by
    norm_num [intersections, mapObst, mkMap, segSegRep, rectSegRep, clip1D, onSeg,
      between, cross, pvsub, dotp, paff, List.flatMap]
  simp [hval]

/-- C6 as amended: a degenerate (zero-length) query returns no
intersection exactly when its point touches neither the boundary nor any
(filled) obstacle — when the point lies on the boundary, or on or inside
an obstacle, the returned intersection points include the point itself —
and a query whose defining endpoints lie exactly on a boundary or
obstacle edge has those edge points included in the returned
intersection points (for obstacles this needs the rectangle to be
well-formed, as every obstacle the repository constructs is). -/
theorem intersections_edge_points_amended (m : MapModel α) (q : Seg α)
    (hwf : ∀ r ∈ m.obstacles, r.xmin ≤ r.xmax ∧ r.ymin ≤ r.ymax) :
    (q.1 = q.2 →
      (intersections m q = [] ↔
        ((∀ e ∈ m.boundary, ¬ onSeg q.1 e) ∧ (∀ r ∈ m.obstacles, ¬ inRect q.1 r)))) ∧
    (q.1 = q.2 →
      ((∃ e ∈ m.boundary, onSeg q.1 e) ∨ (∃ r ∈ m.obstacles, inRect q.1 r)) →
      q.1 ∈ intersections m q) ∧
    ((∃ e ∈ m.boundary, onSeg q.1 e) ∨ (∃ r ∈ m.obstacles, onRectEdge q.1 r) →
      q.1 ∈ intersections m q) ∧
    ((∃ e ∈ m.boundary, onSeg q.2 e) ∨ (∃ r ∈ m.obstacles, onRectEdge q.2 r) →
      q.2 ∈ intersections m q) := by
  have htouch : ((∃ e ∈ m.boundary, onSeg q.1 e) ∨ (∃ r ∈ m.obstacles, inRect q.1 r)) →
      q.1 ∈ intersections m q := by
    intro hfeat
    unfold intersections
    rcases hfeat with ⟨e, he, hone⟩ | ⟨r, hr, hin⟩
    · exact List.mem_append.mpr
        (Or.inl (List.mem_flatMap.mpr ⟨e, he, segSegRep_mem_fst hone⟩))
    · exact List.mem_append.mpr
        (Or.inr (List.mem_flatMap.mpr ⟨r, hr, rectSegRep_mem_fst hin⟩))
  refine ⟨?_, fun _ => htouch, ?_, ?_⟩
  · intro hdeg
    constructor
    · intro hempty
      constructor
      · intro e he hone
        have hmem := htouch (Or.inl ⟨e, he, hone⟩)
        rw [hempty] at hmem
        exact List.not_mem_nil _ hmem
      · intro r hr hin
        have hmem := htouch (Or.inr ⟨r, hr, hin⟩)
        rw [hempty] at hmem
        exact List.not_mem_nil _ hmem
    · intro hnot
      rw [List.eq_nil_iff_forall_not_mem]
      intro p hp
      rcases intersections_sound hp with ⟨e, he, hpe, hpq⟩ | ⟨r, hr, hpr, hpq⟩
      · have hpq1 : p = q.1 := eq_of_onSeg_degenerate hdeg.symm hpq
        exact hnot.1 e he (hpq1 ▸ hpe)
      · have hpq1 : p = q.1 := eq_of_onSeg_degenerate hdeg.symm hpq
        exact hnot.2 r hr (hpq1 ▸ hpr)
  · intro hfeat
    unfold intersections
    rcases hfeat with ⟨e, he, hone⟩ | ⟨r, hr, hedge⟩
    · exact List.mem_append.mpr
        (Or.inl (List.mem_flatMap.mpr ⟨e, he, segSegRep_mem_fst hone⟩))
    · exact List.mem_append.mpr
        (Or.inr (List.mem_flatMap.mpr
          ⟨r, hr, rectSegRep_mem_fst (inRect_of_onRectEdge (hwf r hr) hedge)⟩))
  · intro hfeat
    unfold intersections
    rcases hfeat with ⟨e, he, hone⟩ | ⟨r, hr, hedge⟩
    · exact List.mem_append.mpr
        (Or.inl (List.mem_flatMap.mpr ⟨e, he, segSegRep_mem_snd hone⟩))
    · exact List.mem_append.mpr
        (Or.inr (List.mem_flatMap.mpr
          ⟨r, hr, rectSegRep_mem_snd (inRect_of_onRectEdge (hwf r hr) hedge)⟩))

/-- Witness for the amended C6: the untouched degenerate query at `(5, 5)`
in the obstacle-free world returns no intersection; the degenerate query
at `(4, 4)`, strictly inside the obstacle square, has its point among the
returned intersection points; and a query starting at `(3/2, 2)`, on the
left edge of the obstacle square, has that point among the returned
intersection points. -/
theorem intersections_edge_points_amended_witness :
    intersections mapPlain ((5, 5), (5, 5)) = [] ∧
    ((4 : ℚ), (4 : ℚ)) ∈ intersections mapObst ((4, 4), (4, 4)) ∧
    ((3 / 2 : ℚ), (2 : ℚ)) ∈ intersections mapObst ((3 / 2, 2), (0, 0)) := by
  refine ⟨?_, ?_, ?_⟩
  · refine ((intersections_edge_points_amended mapPlain ((5, 5), (5, 5))
      (by simp [mapPlain, mkMap])).1 rfl).mpr ⟨?_, ?_⟩
    · intro e he
      simp only [mapPlain, mkMap, List.mem_cons, List.not_mem_nil, or_false] at he
      rcases he with he | he | he | he <;> subst he <;>
        rintro ⟨-, hbx, hby⟩ <;>
        simp only [between, min_self, max_self] at hbx hby
      · obtain ⟨h1, h2⟩ := hby
        linarith
      · obtain ⟨h1, h2⟩ := hbx
        linarith
      · obtain ⟨h1, h2⟩ := hby
        linarith
      · obtain ⟨h1, h2⟩ := hbx
        linarith
    · intro r hr
      simp [mapPlain, mkMap] at hr
  · refine (intersections_edge_points_amended mapObst ((4, 4), (4, 4))
      (by norm_num [mapObst, mkMap])).2.1 rfl (Or.inr ?_)
    exact ⟨⟨3 / 2, 3 / 2, 13 / 2, 13 / 2⟩, by norm_num [mapObst, mkMap],
      by norm_num [inRect]⟩
  · refine (intersections_edge_points_amended mapObst ((3 / 2, 2), (0, 0))
      (by norm_num [mapObst, mkMap])).2.2.1 (Or.inr ?_)
    refine ⟨⟨3 / 2, 3 / 2, 13 / 2, 13 / 2⟩, by norm_num [mapObst, mkMap], ?_⟩
    refine ⟨((3 / 2, 13 / 2), (3 / 2, 3 / 2)), by norm_num [rectEdges], ?_⟩
    refine ⟨?_, ?_, ?_⟩
    · show ((3 / 2 : ℚ) - 3 / 2) * (2 - 13 / 2) - (3 / 2 - 13 / 2) * (3 / 2 - 3 / 2) = 0
      norm_num
    · show min (3 / 2 : ℚ) (3 / 2) ≤ 3 / 2 ∧ (3 / 2 : ℚ) ≤ max (3 / 2) (3 / 2)
      norm_num
    · show min (13 / 2 : ℚ) (3 / 2) ≤ 2 ∧ (2 : ℚ) ≤ max (13 / 2) (3 / 2)
      norm_num

/-! ### C2: beacon visibility -/

/-- C2: `calc_beacon_positions` emits, for each beacon of the map, the
offset `(b.x - pos.x, b.y - pos.y, 0)` exactly when the segment from the
pose to the beacon has an empty `intersections` list; and every emitted
offset is the offset of such a visible beacon. -/
theorem calc_beacon_positions_spec (m : MapModel α) (pos_true : Pt α) :
    (∀ b ∈ m.beacons,
      ((b.1 - pos_true.1, b.2 - pos_true.2, (0 : α)) ∈ calc_beacon_positions m pos_true ↔
        intersections m (pos_true, b) = [])) ∧
    (∀ v ∈ calc_beacon_positions m pos_true, ∃ b ∈ m.beacons,
      intersections m (pos_true, b) = [] ∧ v = (b.1 - pos_true.1, b.2 - pos_true.2, 0)) := by
  constructor
  · intro b hb
    constructor
    · intro hmem
      obtain ⟨c, hc, hsome⟩ := List.mem_filterMap.mp hmem
      by_cases hint : intersections m (pos_true, c) = []
      · rw [if_pos hint] at hsome
        have heq := Option.some.inj hsome
        have h1 : c.1 - pos_true.1 = b.1 - pos_true.1 := congrArg (fun t => t.1) heq
        have h2 : c.2 - pos_true.2 = b.2 - pos_true.2 := congrArg (fun t => t.2.1) heq
        have hcb : c = b := Prod.ext (by linarith) (by linarith)
        rwa [hcb] at hint
      · rw [if_neg hint] at hsome
        exact absurd hsome (by simp)
    · intro hint
      exact List.mem_filterMap.mpr ⟨b, hb, by rw [if_pos hint]⟩
  · intro v hv
    obtain ⟨b, hb, hsome⟩ := List.mem_filterMap.mp hv
    by_cases hint : intersections m (pos_true, b) = []
    · rw [if_pos hint] at hsome
      exact ⟨b, hb, hint, (Option.some.inj hsome).symm⟩
    · rw [if_neg hint] at hsome
      exact absurd hsome (by simp)

/-- Witness for C2, at the obstacle-free world with one beacon at `(5, 0)`
and the pose at the origin (the spec's visibility scenario). -/
theorem calc_beacon_positions_spec_witness :
    ((5 : ℚ) - 0, (0 : ℚ) - 0, (0 : ℚ)) ∈ calc_beacon_positions mapBeacon (0, 0) ↔
      intersections mapBeacon ((0, 0), (5, 0)) = [] :=
  (calc_beacon_positions_spec mapBeacon (0, 0)).1 (5, 0) (by norm_num [mapBeacon, mkMap])

/-! ### Python `min` with a key function returns the first minimum -/

theorem pyMinBy_isFirstMin {β γ : Type} [LinearOrder γ] (f : β → γ) (a : β)
    (l : List β) : isFirstMinBy f (a :: l) (pyMinBy f a l) := by
  induction l generalizing a with
  | nil =>
    refine ⟨0, rfl, ?_, ?_⟩
    · intro y hy
      rcases List.mem_singleton.mp hy with rfl
      exact le_refl _
    · intro j hj y hgety
      omega
  | cons b t ih =>
    by_cases hba : f b < f a
    · have hfold : pyMinBy f a (b :: t) = pyMinBy f b t := by
        simp only [pyMinBy, List.foldl_cons]
        rw [if_pos hba]
      obtain ⟨i, hget, hmin, hfirst⟩ := ih b
      rw [hfold]
      have hRb : f (pyMinBy f b t) ≤ f b :=
        hmin _ (List.mem_cons_self b t)
      refine ⟨i + 1, by simpa using hget, ?_, ?_⟩
      · intro y hy
        rcases List.mem_cons.mp hy with rfl | hy'
        · exact hRb.trans hba.le
        · exact hmin y hy'
      · intro j hj y hgety
        cases j with
        | zero =>
          simp only [List.get?_cons_zero, Option.some.injEq] at hgety
          subst hgety
          exact lt_of_le_of_lt hRb hba
        | succ j' =>
          exact hfirst j' (by omega) y (by simpa using hgety)
    · have hfold : pyMinBy f a (b :: t) = pyMinBy f a t := by
        simp only [pyMinBy, List.foldl_cons]
        rw [if_neg hba]
      obtain ⟨i, hget, hmin, hfirst⟩ := ih a
      rw [hfold]
      have hfab : f a ≤ f b := not_lt.mp hba
      cases i with
      | zero =>
        simp only [List.get?_cons_zero, Option.some.injEq] at hget
        refine ⟨0, by simpa using congrArg some hget, ?_, ?_⟩
        · intro y hy
          rcases List.mem_cons.mp hy with rfl | hy'
          · exact (congrArg f hget.symm).le
          rcases List.mem_cons.mp hy' with rfl | hy''
          · exact (congrArg f hget.symm).le.trans hfab
          · exact hmin y (List.mem_cons_of_mem _ hy'')
        · intro j hj y hgety
          omega
      | succ i' =>
        refine ⟨i' + 2, by simpa using hget, ?_, ?_⟩
        · intro y hy
          rcases List.mem_cons.mp hy with rfl | hy'
          · exact hmin _ (List.mem_cons_self _ _)
          rcases List.mem_cons.mp hy' with rfl | hy''
          · exact (hfirst 0 (by omega) _ List.get?_cons_zero).le.trans hfab
          · exact hmin y (List.mem_cons_of_mem _ hy'')
        · intro j hj y hgety
          cases j with
          | zero =>
            simp only [List.get?_cons_zero, Option.some.injEq] at hgety
            subst hgety
            exact hfirst 0 (by omega) _ List.get?_cons_zero
          | succ j' =>
            cases j' with
            | zero =>
              simp only [List.get?_cons_succ, List.get?_cons_zero,
                Option.some.injEq] at hgety
              subst hgety
              exact lt_of_lt_of_le (hfirst 0 (by omega) _ List.get?_cons_zero) hfab
            | succ j'' =>
              refine hfirst (j'' + 1) (by omega) y ?_
              simpa using hgety

/-! ### Python `range(0, stop, step)` -/

theorem pyRange_mem {stop step : ℕ} (hstep : 0 < step) (x : ℕ) :
    x ∈ pyRange stop step ↔ (∃ k, x = k * step) ∧ x < stop := by
  unfold pyRange
  simp only [List.mem_map, List.mem_range]
  constructor
  · rintro ⟨k, hk, rfl⟩
    refine ⟨⟨k, rfl⟩, ?_⟩
    have h2 := Nat.mul_le_mul_right step (Nat.succ_le_of_lt hk)
    have h3 := Nat.div_mul_le_self (stop + step - 1) step
    rw [Nat.succ_mul] at h2
    omega
  · rintro ⟨⟨k, rfl⟩, hlt⟩
    refine ⟨k, ?_, rfl⟩
    rw [Nat.lt_iff_add_one_le, Nat.le_div_iff_mul_le hstep, Nat.add_mul, Nat.one_mul]
    omega

theorem pyRange_sorted (stop step : ℕ) (hstep : 0 < step) :
    List.Pairwise (· < ·) (pyRange stop step) := by
  unfold pyRange
  rw [List.pairwise_map]
  exact (List.pairwise_lt_range _).imp
    (fun hab => (Nat.mul_lt_mul_right hstep).mpr hab)

/-! ### C1: the LiDAR point cloud -/

/-- C1: `calc_lidar_point_cloud` considers the angles
`0, delta, 2*delta, ...` below `360` in increasing order; each angle's
ray contributes through `lidarPerRay`, which emits the ray's far endpoint
relative to the pose when the ray intersects nothing, and otherwise
selects the intersection point nearest to the pose by Euclidean distance
(ties broken by encounter order, as Python's `min` does), emitting it
relative to the pose exactly when its distance lies in
`[r_min, r_max]` and emitting nothing otherwise. -/
theorem calc_lidar_point_cloud_spec (m : MapModel ℝ) (pos_true : Pt ℝ)
    (delta_theta : ℕ) (r_max r_min : ℝ) (hd : 0 < delta_theta)
    (hr0 : 0 ≤ r_min) (hrr : r_min ≤ r_max) :
    (List.Pairwise (· < ·) (pyRange 360 delta_theta) ∧
      ∀ x : ℕ, x ∈ pyRange 360 delta_theta ↔ (∃ k, x = k * delta_theta) ∧ x < 360) ∧
    calc_lidar_point_cloud m pos_true delta_theta r_max r_min =
      (pyRange 360 delta_theta).filterMap
        (fun theta => lidarPerRay m pos_true r_max r_min (lidarRay pos_true theta r_max)) ∧
    (∀ theta : ℕ,
      (intersections m (lidarRay pos_true theta r_max) = [] →
        lidarPerRay m pos_true r_max r_min (lidarRay pos_true theta r_max) =
          some ((rayEndpoint pos_true theta r_max).1 - pos_true.1,
            (rayEndpoint pos_true theta r_max).2 - pos_true.2, 0)) ∧
      (∀ c rest, intersections m (lidarRay pos_true theta r_max) = c :: rest →
        ∃ closest, isFirstMinBy (euclidDist pos_true) (c :: rest) closest ∧
          (r_min ≤ euclidDist pos_true closest ∧ euclidDist pos_true closest ≤ r_max →
            lidarPerRay m pos_true r_max r_min (lidarRay pos_true theta r_max) =
              some (closest.1 - pos_true.1, closest.2 - pos_true.2, 0)) ∧
          (¬ (r_min ≤ euclidDist pos_true closest ∧
              euclidDist pos_true closest ≤ r_max) →
            lidarPerRay m pos_true r_max r_min (lidarRay pos_true theta r_max) =
              none))) := by
  refine ⟨⟨pyRange_sorted _ _ hd, fun x => pyRange_mem hd x⟩, ?_, ?_⟩
  · unfold calc_lidar_point_cloud
    rw [List.filterMap_map]
    rfl
  · intro theta
    constructor
    · intro hempty
      simp only [lidarPerRay, hempty]
      rfl
    · intro c rest hcons
      refine ⟨pyMinBy (fun p => euclidDist pos_true p) c rest,
        pyMinBy_isFirstMin _ c rest, ?_, ?_⟩
      · intro hin
        simp only [lidarPerRay, hcons]
        rw [if_pos hin]
      · intro hout
        simp only [lidarPerRay, hcons]
        rw [if_neg hout]

/-- Witness for C1, at the obstacle-free real world, the pose at the
origin, angular step `360`, `r_max = 1` and `r_min = 0`. -/
theorem calc_lidar_point_cloud_spec_witness :
    calc_lidar_point_cloud mapPlainR (0, 0) 360 1 0 =
      (pyRange 360 360).filterMap
        (fun theta => lidarPerRay mapPlainR (0, 0) 1 0 (lidarRay (0, 0) theta 1)) :=
  ((calc_lidar_point_cloud_spec mapPlainR (0, 0) 360 1 0 (by norm_num)
    le_rfl zero_le_one).2).1

/-! ### C9: the two copies of return_se_to_closest_beacon -/

/-- C9, counterexample to the claim as stated: on an empty beacon list the
two copies return different sentinels — `multi_slam/Map.py` returns
`10e5` while `experiments/visualize_map.py` returns `-10e5`. -/
theorem return_se_claim_false :
    MapPy.return_se_to_closest_beacon [] ((0 : ℝ), 0) ≠
      VizPy.return_se_to_closest_beacon [] ((0 : ℝ), 0) := by
  show (1000000 : ℝ) ≠ -1000000
  norm_num

/-- C9 as amended: the two copies agree on every non-empty beacon list,
and on the empty beacon list they return the differing sentinels
`10e5 = 1000000` (`multi_slam/Map.py`) and `-10e5 = -1000000`
(`experiments/visualize_map.py`). -/
theorem return_se_amended (beacons : List (Pt ℝ)) (point : Pt ℝ)
    (h : beacons ≠ []) :
    MapPy.return_se_to_closest_beacon beacons point =
      VizPy.return_se_to_closest_beacon beacons point ∧
    MapPy.return_se_to_closest_beacon [] point = 1000000 ∧
    VizPy.return_se_to_closest_beacon [] point = -1000000 := by
  refine ⟨?_, rfl, rfl⟩
  cases beacons with
  | nil => exact absurd rfl h
  | cons b bs => rfl

/-- Witness for the amended C9, at a singleton beacon list. -/
theorem return_se_amended_witness :
    MapPy.return_se_to_closest_beacon [((0 : ℝ), 0)] (1, 1) =
      VizPy.return_se_to_closest_beacon [((0 : ℝ), 0)] (1, 1) :=
  (return_se_amended [((0 : ℝ), 0)] (1, 1) (by simp)).1

/-! ### C3: what slam_loop actually calls -/

/-- C3: the live body of `SLAMNode.slam_loop` never calls the mapper's
update — the `self.map.update(...)` block is commented out — so each tick
runs only the localization update followed by `publish_map`. -/
theorem slam_loop_skips_mapping :
    SlamCall.mapping_update ∉ slam_loop_calls ∧
    slam_loop_calls = [SlamCall.localization_update, SlamCall.publish_map] :=
  ⟨by decide, rfl⟩

/-! ### numpy.argmax returns the first index of the maximum -/

theorem argmax_fold_invariant (l : List ℝ) :
    ∀ (n bi : ℕ) (bv : ℝ),
      (List.foldl (fun best p => if best.2 < p.2 then p else best) (bi, bv)
          (l.enumFrom n) = (bi, bv) ∧ ∀ y ∈ l, y ≤ bv) ∨
      (∃ j, l.get? j =
          some (List.foldl (fun best p => if best.2 < p.2 then p else best)
            (bi, bv) (l.enumFrom n)).2 ∧
        (List.foldl (fun best p => if best.2 < p.2 then p else best) (bi, bv)
            (l.enumFrom n)).1 = n + j ∧
        bv < (List.foldl (fun best p => if best.2 < p.2 then p else best)
            (bi, bv) (l.enumFrom n)).2 ∧
        (∀ y ∈ l, y ≤ (List.foldl (fun best p => if best.2 < p.2 then p else best)
            (bi, bv) (l.enumFrom n)).2) ∧
        ∀ j', j' < j → ∀ y, l.get? j' = some y →
          y < (List.foldl (fun best p => if best.2 < p.2 then p else best)
            (bi, bv) (l.enumFrom n)).2) := by
  induction l with
  | nil =>
    intro n bi bv
    exact Or.inl ⟨rfl, by simp⟩
  | cons x xs ih =>
    intro n bi bv
    rw [List.enumFrom_cons, List.foldl_cons]
    by_cases hlt : bv < x
    · rw [if_pos hlt]
      rcases ih (n + 1) n x with ⟨hres, hall⟩ | ⟨j, hget, hidx, hgt, hall, hfirst⟩
      · rw [hres]
        refine Or.inr ⟨0, by simp, by simp, hlt, ?_, ?_⟩
        · intro y hy
          rcases List.mem_cons.mp hy with rfl | hy'
          · exact le_refl _
          · exact hall y hy'
        · intro j' hj' y hgety
          omega
      · refine Or.inr ⟨j + 1, by simpa using hget, by omega, hlt.trans hgt, ?_, ?_⟩
        · intro y hy
          rcases List.mem_cons.mp hy with rfl | hy'
          · exact hgt.le
          · exact hall y hy'
        · intro j' hj' y hgety
          cases j' with
          | zero =>
            simp only [List.get?_cons_zero, Option.some.injEq] at hgety
            subst hgety
            exact hgt
          | succ j'' =>
            exact hfirst j'' (by omega) y (by simpa using hgety)
    · rw [if_neg hlt]
      rcases ih (n + 1) bi bv with ⟨hres, hall⟩ | ⟨j, hget, hidx, hgt, hall, hfirst⟩
      · rw [hres]
        refine Or.inl ⟨rfl, ?_⟩
        intro y hy
        rcases List.mem_cons.mp hy with rfl | hy'
        · exact not_lt.mp hlt
        · exact hall y hy'
      · refine Or.inr ⟨j + 1, by simpa using hget, by omega, hgt, ?_, ?_⟩
        · intro y hy
          rcases List.mem_cons.mp hy with rfl | hy'
          · exact (not_lt.mp hlt).trans hgt.le
          · exact hall y hy'
        · intro j' hj' y hgety
          cases j' with
          | zero =>
            simp only [List.get?_cons_zero, Option.some.injEq] at hgety
            subst hgety
            exact lt_of_le_of_lt (not_lt.mp hlt) hgt
          | succ j'' =>
            exact hfirst j'' (by omega) y (by simpa using hgety)

theorem pyArgmax_isFirstMax (a : ℝ) (t : List ℝ) :
    isFirstMaxIdx (a :: t) (pyArgmax (a :: t)) := by
  have hstart : pyArgmax (a :: t) =
      (List.foldl (fun best p => if best.2 < p.2 then p else best) (0, a)
        (t.enumFrom 1)).1 := by
    show (List.foldl _ (0, (a :: t).headD 0) ((a :: t).enum)).1 = _
    rw [show (a :: t).enum = (0, a) :: t.enumFrom 1 from rfl, List.foldl_cons]
    norm_num
  rcases argmax_fold_invariant t 1 0 a with ⟨hres, hall⟩ |
    ⟨j, hget, hidx, hgt, hall, hfirst⟩
  · rw [hstart, hres]
    refine ⟨a, rfl, ?_, ?_⟩
    · intro y hy
      rcases List.mem_cons.mp hy with rfl | hy'
      · exact le_refl _
      · exact hall y hy'
    · intro j hj y hgety
      omega
  · rw [hstart, hidx]
    refine ⟨_, by rw [Nat.add_comm 1 j]; simpa using hget, ?_, ?_⟩
    · intro y hy
      rcases List.mem_cons.mp hy with rfl | hy'
      · exact hgt.le
      · exact hall y hy'
    · intro j' hj' y hgety
      cases j' with
      | zero =>
        simp only [List.get?_cons_zero, Option.some.injEq] at hgety
        subst hgety
        exact hgt
      | succ j'' =>
        exact hfirst j'' (by omega) y (by simpa using hgety)

/-! ### C4: the exploration control command -/

/-- C4, counterexample to the claim as stated: with a single tracked
landmark at `(0, 1)` and the robot at the origin, the x-distance to the
target is `0`, so a command proportional to the signed x-distance would
have `linear.x = 0`; the code instead publishes
`linear.x = min(0.3 * 1, 0.2) = 0.2`, because the magnitude is computed
from the full Euclidean distance. -/
theorem update_control_proposed_claim_false :
    (update_control_proposed [((0 : ℝ), 1)] [⟨1, 0, 0, 1⟩] (0, 0, 0)).linear_x = 0.2 ∧
    (((0 : ℝ), (1 : ℝ)).1 - ((0 : ℝ), (0 : ℝ), (0 : ℝ)).1 = 0) ∧
    ∀ k : ℝ, k * 0 ≠ 0.2 := by
  refine ⟨?_, by norm_num, by intro k; norm_num⟩
  norm_num [update_control_proposed, pyArgmax, Cov2.det, List.headD, List.enum,
    List.enumFrom, List.foldl, List.getD, min_def]

/-- C4 as amended: with no tracked landmarks the fixed slow
rotate-and-advance command `(linear.x, angular.z) = (0.1, 0.2)` is
published; otherwise the target is the landmark at the first index of the
maximal covariance determinant (`numpy.argmax`), and the published
command has `linear.x = min(0.3 * d, 0.2)` for `d` the Euclidean
distance to the target, negated exactly when the target's x-offset is
negative, with zero lateral and angular components.  The covariance list
is assumed to be index-aligned with the position list (the mapper's
invariant; with fewer covariances than positions the Python code would
throw). -/
theorem update_control_proposed_amended (bp : List (Pt ℝ)) (bc : List Cov2)
    (position : ℝ × ℝ × ℝ) :
    (bp = [] → update_control_proposed bp bc position =
      { linear_x := 0.1, linear_y := 0, angular_z := 0.2 }) ∧
    (∀ b0 rest, bp = b0 :: rest → bc.length = bp.length →
      ∃ i v, isFirstMaxIdx (bc.map Cov2.det) i ∧ bp.get? i = some v ∧
        update_control_proposed bp bc position =
          { linear_x :=
              if v.1 - position.1 < 0 then
                -(min (0.3 * Real.sqrt ((v.1 - position.1) ^ 2 +
                    (v.2 - position.2.1) ^ 2)) 0.2)
              else
                min (0.3 * Real.sqrt ((v.1 - position.1) ^ 2 +
                  (v.2 - position.2.1) ^ 2)) 0.2,
            linear_y := 0, angular_z := 0 }) := by
  constructor
  · intro hbp
    subst hbp
    rfl
  · intro b0 rest hbp hlen
    subst hbp
    have hbc : ∃ c cs, bc = c :: cs := by
      cases bc with
      | nil => simp at hlen
      | cons c cs => exact ⟨c, cs, rfl⟩
    obtain ⟨c, cs, rfl⟩ := hbc
    have hchar : isFirstMaxIdx ((c :: cs).map Cov2.det)
        (pyArgmax ((c :: cs).map Cov2.det)) := by
      rw [List.map_cons]
      exact pyArgmax_isFirstMax _ _
    obtain ⟨w, hw, -, -⟩ := hchar
    have hlt : pyArgmax ((c :: cs).map Cov2.det) < (b0 :: rest).length := by
      obtain ⟨h1, -⟩ := List.get?_eq_some.mp hw
      have h2 : ((c :: cs).map Cov2.det).length = (b0 :: rest).length := by
        rw [List.length_map]
        exact hlen
      omega
    obtain ⟨v, hv⟩ : ∃ v, (b0 :: rest).get? (pyArgmax ((c :: cs).map Cov2.det)) =
        some v := by
      rcases h : (b0 :: rest).get? (pyArgmax ((c :: cs).map Cov2.det)) with _ | v
      · rw [List.get?_eq_none] at h
        omega
      · exact ⟨v, rfl⟩
    refine ⟨pyArgmax ((c :: cs).map Cov2.det), v, ?_, hv, ?_⟩
    · rw [List.map_cons]
      exact pyArgmax_isFirstMax _ _
    · show (let beacon_uncertainties := (c :: cs).map Cov2.det
        let target_idx := pyArgmax beacon_uncertainties
        let target_beacon := (b0 :: rest).getD target_idx b0
        let delta_x := target_beacon.1 - position.1
        let delta_y := target_beacon.2 - position.2.1
        let distance := Real.sqrt (delta_x ^ 2 + delta_y ^ 2)
        let linear_x := min (0.3 * distance) 0.2
        ({ linear_x := if delta_x < 0 then -linear_x else linear_x,
           linear_y := 0, angular_z := 0 } : Twist)) = _
      have hgd : (b0 :: rest).getD (pyArgmax ((c :: cs).map Cov2.det)) b0 = v := by
        rw [List.getD_eq_getD_get?, hv]
        rfl
      simp only [hgd]

/-- Witness for the amended C4: the no-landmark branch at empty inputs,
and the single-landmark branch at the landmark `(0, 1)`. -/
theorem update_control_proposed_amended_witness :
    (update_control_proposed [] [] ((0 : ℝ), 0, 0) =
      { linear_x := 0.1, linear_y := 0, angular_z := 0.2 }) ∧
    ∃ i v, isFirstMaxIdx (([⟨1, 0, 0, 1⟩] : List Cov2).map Cov2.det) i ∧
      ([((0 : ℝ), 1)] : List (Pt ℝ)).get? i = some v ∧
      update_control_proposed [((0 : ℝ), 1)] [⟨1, 0, 0, 1⟩] (0, 0, 0) =
        { linear_x :=
            if v.1 - (0 : ℝ) < 0 then
              -(min (0.3 * Real.sqrt ((v.1 - 0) ^ 2 + (v.2 - 0) ^ 2)) 0.2)
            else min (0.3 * Real.sqrt ((v.1 - 0) ^ 2 + (v.2 - 0) ^ 2)) 0.2,
          linear_y := 0, angular_z := 0 } :=
  ⟨(update_control_proposed_amended [] [] ((0 : ℝ), 0, 0)).1 rfl,
    (update_control_proposed_amended [((0 : ℝ), 1)] [⟨1, 0, 0, 1⟩] (0, 0, 0)).2
      ((0 : ℝ), 1) [] rfl rfl⟩

/-! ### C5: the published occupancy grid -/

theorem occupancyOf_range (l : ℝ) : 0 ≤ occupancyOf l ∧ occupancyOf l ≤ 100 := by
  have hexp := Real.exp_pos (-clampLogOdds l)
  have hden : (0 : ℝ) < 1 + Real.exp (-clampLogOdds l) := by linarith
  have hp1 : 1 / (1 + Real.exp (-clampLogOdds l)) < 1 := by
    rw [div_lt_one hden]
    linarith
  have hx0 : (0 : ℝ) < 100 * (1 / (1 + Real.exp (-clampLogOdds l))) := by positivity
  have hx1 : 100 * (1 / (1 + Real.exp (-clampLogOdds l))) < 100 := by linarith
  have hf0 : 0 ≤ ⌊100 * (1 / (1 + Real.exp (-clampLogOdds l)))⌋ :=
    Int.floor_nonneg.mpr hx0.le
  have hf1 : ⌊100 * (1 / (1 + Real.exp (-clampLogOdds l)))⌋ < 100 := by
    rw [Int.floor_lt]
    exact_mod_cast hx1
  unfold occupancyOf int8Trunc
  rw [if_pos hx0.le,
    Int.emod_eq_of_lt (by omega) (by omega)]
  omega

/-- C5: every entry of the flattened occupancy array is an integer in
`[0, 100]`, and the array is the row-major flattening of the per-cell
values `occupancyOf` (the `int8` truncation of `100` times the logistic
transform of the log-odds clamped to `[-10, 10]`): for a rectangular
grid of row width `W`, the entry at flat index `r * W + c` is
`occupancyOf` of the cell in row `r`, column `c`. -/
theorem publish_map_data_spec (g : List (List ℝ)) (W : ℕ)
    (hW : ∀ row ∈ g, row.length = W) (r c : ℕ) (hr : r < g.length) (hc : c < W) :
    (∀ e ∈ publish_map_data g, 0 ≤ e ∧ e ≤ 100) ∧
    (publish_map_data g).get? (r * W + c) =
      ((g.get? r).bind fun row => row.get? c).map occupancyOf := by
  constructor
  · intro e he
    unfold publish_map_data at he
    obtain ⟨sub, hsub, hesub⟩ := List.mem_flatten.mp he
    obtain ⟨row, -, rfl⟩ := List.mem_map.mp hsub
    obtain ⟨l, -, rfl⟩ := List.mem_map.mp hesub
    exact occupancyOf_range l
  · induction g generalizing r with
    | nil => exact absurd hr (by simp)
    | cons row rows ih =>
      have hrowlen : (row.map occupancyOf).length = W := by
        rw [List.length_map]
        exact hW row (List.mem_cons_self _ _)
      cases r with
      | zero =>
        show ((row.map occupancyOf) ++ (rows.map fun t => t.map occupancyOf).flatten).get?
            (0 * W + c) = _
        rw [Nat.zero_mul, Nat.zero_add,
          List.get?_append (by rw [hrowlen]; exact hc), List.get?_map]
        rfl
      | succ r' =>
        have hidx : (r' + 1) * W + c = W + (r' * W + c) := by
          rw [Nat.succ_mul]
          omega
        show ((row.map occupancyOf) ++ (rows.map fun t => t.map occupancyOf).flatten).get?
            ((r' + 1) * W + c) = _
        rw [hidx, List.get?_append_right (by omega)]
        have hsub : W + (r' * W + c) - (row.map occupancyOf).length = r' * W + c := by
          rw [hrowlen]
          omega
        rw [hsub]
        exact ih (fun t ht => hW t (List.mem_cons_of_mem _ ht)) r' (by simpa using hr)

/-- Witness for C5, at the two-row one-column grid `[[0], [1]]`, reading
the cell in row `1`, column `0`. -/
theorem publish_map_data_spec_witness :
    (∀ e ∈ publish_map_data [[(0 : ℝ)], [1]], 0 ≤ e ∧ e ≤ 100) ∧
    (publish_map_data [[(0 : ℝ)], [1]]).get? (1 * 1 + 0) =
      ((([[(0 : ℝ)], [1]]).get? 1).bind fun row => row.get? 0).map occupancyOf :=
  publish_map_data_spec [[(0 : ℝ)], [1]] 1 (by simp) 1 0 (by norm_num) Nat.one_pos

/-! ### C8: the particle-filter update invariant -/

theorem list_sum_map_div (w : List ℝ) (s : ℝ) :
    (w.map (· / s)).sum = w.sum / s := by
  induction w with
  | nil => simp
  | cons x xs ih => simp [ih, add_div]

theorem pfNormalize_length (w : List ℝ) : (pfNormalize w).length = w.length := by
  simp only [pfNormalize]
  split_ifs <;> simp

theorem pfNormalize_sum (w : List ℝ) (hw : w.length ≠ 0) :
    (pfNormalize w).sum = 1 := by
  simp only [pfNormalize]
  by_cases hs : w.sum = 0
  · rw [if_pos hs, List.sum_replicate, nsmul_eq_mul]
    have hN : (w.length : ℝ) ≠ 0 := Nat.cast_ne_zero.mpr hw
    field_simp
  · rw [if_neg hs, list_sum_map_div, div_self hs]

/-- C8 (the particle-filter localizer is modelled from the spec; its
module is not among the given sources): after every `update` call on a
valid particle set of the size `N` fixed at construction, the weights sum
to exactly 1 (the degenerate zero-sum case resets to the uniform
distribution, and resampling resets to uniform weights) and the number of
particles is still `N`. -/
theorem pfUpdate_spec (N : ℕ) (hN : 0 < N) (dt sigma floor_val : ℝ)
    (sel : ℕ → ℕ) (control_input : Pose)
    (observations landmarks : List (Pt ℝ)) (noise : List (ℝ × ℝ))
    (s : ParticleState) (hp : s.particles.length = N)
    (hw : s.weights.length = N) (hn : noise.length = N) :
    ((pfUpdate dt sigma floor_val sel control_input observations landmarks
        noise s).1.weights).sum = 1 ∧
    ((pfUpdate dt sigma floor_val sel control_input observations landmarks
        noise s).1.particles).length = N := by
  have hps : (pfPredict dt control_input noise s.particles).length = N := by
    unfold pfPredict
    rw [List.length_zipWith, hp, hn, min_self]
  have hw1 : (pfWeight sigma floor_val landmarks observations
      (pfPredict dt control_input noise s.particles) s.weights).length = N := by
    unfold pfWeight
    rw [List.length_zipWith, hps, hw, min_self]
  have hw2len : (pfNormalize (pfWeight sigma floor_val landmarks observations
      (pfPredict dt control_input noise s.particles) s.weights)).length = N := by
    rw [pfNormalize_length, hw1]
  have hw2sum : (pfNormalize (pfWeight sigma floor_val landmarks observations
      (pfPredict dt control_input noise s.particles) s.weights)).sum = 1 :=
    pfNormalize_sum _ (by rw [hw1]; omega)
  have hN' : (N : ℝ) ≠ 0 := Nat.cast_ne_zero.mpr hN.ne'
  simp only [pfUpdate]
  unfold pfResample
  split_ifs with hess
  · constructor
    · rw [List.sum_replicate, nsmul_eq_mul, hps]
      field_simp
    · rw [List.length_map, List.length_range, hps]
  · exact ⟨hw2sum, hps⟩

/-- Witness for C8, at a single-particle state with empty observation and
landmark lists. -/
theorem pfUpdate_spec_witness :
    ((pfUpdate 1 1 0 id (0, 0, 0) [] [] [(0, 0)]
        ⟨[(0, 0, 0)], [1]⟩).1.weights).sum = 1 ∧
    ((pfUpdate 1 1 0 id (0, 0, 0) [] [] [(0, 0)]
        ⟨[(0, 0, 0)], [1]⟩).1.particles).length = 1 :=
  pfUpdate_spec 1 Nat.one_pos 1 1 0 id (0, 0, 0) [] [] [(0, 0)]
    ⟨[(0, 0, 0)], [1]⟩ rfl rfl rfl

/-! ### C10: Bresenham's line -/

theorem bresLoop_spec (x1 y1 dx dy sx sy : ℤ) (hsx : sx * sx = 1)
    (hsy : sy * sy = 1) :
    ∀ (fuel : ℕ) (x0 y0 err : ℤ),
      sx * (x1 - x0) + sy * (y1 - y0) < (fuel : ℤ) →
      0 ≤ sx * (x1 - x0) → sx * (x1 - x0) ≤ dx →
      0 ≤ sy * (y1 - y0) → sy * (y1 - y0) ≤ dy →
      err = dx - dy + sx * (x1 - x0) * dy - sy * (y1 - y0) * dx →
      bresLoop x1 y1 dx dy sx sy fuel x0 y0 err ≠ [] ∧
      (bresLoop x1 y1 dx dy sx sy fuel x0 y0 err).head? = some (x0, y0) ∧
      (bresLoop x1 y1 dx dy sx sy fuel x0 y0 err).getLast? = some (x1, y1) ∧
      List.Chain' (fun p q => |q.1 - p.1| ≤ 1 ∧ |q.2 - p.2| ≤ 1)
        (bresLoop x1 y1 dx dy sx sy fuel x0 y0 err) := by
  have habs_sx : |sx| = 1 := by
    rcases mul_self_eq_one_iff.mp hsx with h | h <;> rw [h] <;> decide
  have habs_sy : |sy| = 1 := by
    rcases mul_self_eq_one_iff.mp hsy with h | h <;> rw [h] <;> decide
  intro fuel
  induction fuel with
  | zero =>
    intro x0 y0 err hfuel h1 h2 h3 h4 herr
    exfalso
    omega
  | succ fuel ih =>
    intro x0 y0 err hfuel h1 h2 h3 h4 herr
    simp only [bresLoop]
    by_cases hat : x0 = x1 ∧ y0 = y1
    · rw [if_pos hat]
      obtain ⟨hx, hy⟩ := hat
      subst hx
      subst hy
      exact ⟨by simp, by simp, by simp, by simp⟩
    · rw [if_neg hat]
      have hx1x0 : x1 - x0 = sx * (sx * (x1 - x0)) := by
        rw [← mul_assoc, hsx, one_mul]
      have hy1y0 : y1 - y0 = sy * (sy * (y1 - y0)) := by
        rw [← mul_assoc, hsy, one_mul]
      have hdx0 : 0 ≤ dx := le_trans h1 h2
      have hdy0 : 0 ≤ dy := le_trans h3 h4
      have hnz : ¬ (sx * (x1 - x0) = 0 ∧ sy * (y1 - y0) = 0) := by
        rintro ⟨ha, hb⟩
        rw [ha, mul_zero] at hx1x0
        rw [hb, mul_zero] at hy1y0
        exact hat ⟨by omega, by omega⟩
      have hnew_x : sx * (x1 - (x0 + sx)) = sx * (x1 - x0) - 1 := by
        have : sx * (x1 - (x0 + sx)) = sx * (x1 - x0) - sx * sx := by ring
        rw [this, hsx]
      have hnew_y : sy * (y1 - (y0 + sy)) = sy * (y1 - y0) - 1 := by
        have : sy * (y1 - (y0 + sy)) = sy * (y1 - y0) - sy * sy := by ring
        rw [this, hsy]
      have hstep_x : |x0 + sx - x0| ≤ 1 := by
        rw [show x0 + sx - x0 = sx by ring, habs_sx]
      have hstep_y : |y0 + sy - y0| ≤ 1 := by
        rw [show y0 + sy - y0 = sy by ring, habs_sy]
      have hstep_0 : |x0 - x0| ≤ (1 : ℤ) := by simp
      -- no-overshoot: the x-branch cannot fire when the x-distance is spent
      have hover_x : -dy < 2 * err → 1 ≤ sx * (x1 - x0) := by
        intro hC1
        by_contra hcon
        have hrx0 : sx * (x1 - x0) = 0 := by omega
        have hry1 : 1 ≤ sy * (y1 - y0) := by
          by_contra hcon2
          exact hnz ⟨hrx0, by omega⟩
        rw [hrx0] at herr
        nlinarith [mul_nonneg hdx0 (by omega : (0 : ℤ) ≤ sy * (y1 - y0) - 1)]
      have hover_y : 2 * err < dx → 1 ≤ sy * (y1 - y0) := by
        intro hC2
        by_contra hcon
        have hry0 : sy * (y1 - y0) = 0 := by omega
        have hrx1 : 1 ≤ sx * (x1 - x0) := by omega
        rw [hry0] at herr
        nlinarith [mul_nonneg hdy0 (by omega : (0 : ℤ) ≤ sx * (x1 - x0) - 1)]
      by_cases hC1 : -dy < 2 * err
      · by_cases hC2 : 2 * err < dx
        · -- diagonal step
          rw [if_pos hC1, if_pos hC1, if_pos hC2, if_pos hC2]
          have hrx1 := hover_x hC1
          have hry1 := hover_y hC2
          obtain ⟨hne, hhead, hlast, hchain⟩ := ih (x0 + sx) (y0 + sy)
            (err - dy + dx) (by rw [hnew_x, hnew_y]; omega)
            (by rw [hnew_x]; omega) (by rw [hnew_x]; omega)
            (by rw [hnew_y]; omega) (by rw [hnew_y]; omega)
            (by rw [hnew_x, hnew_y]; linear_combination herr)
          refine ⟨by simp, by simp, ?_, ?_⟩
          · rcases hrest : bresLoop x1 y1 dx dy sx sy fuel (x0 + sx) (y0 + sy)
                (err - dy + dx) with _ | ⟨b, t⟩
            · exact absurd hrest hne
            · rw [hrest] at hlast
              rw [List.getLast?_cons_cons]
              exact hlast
          · refine List.chain'_cons'.mpr ⟨?_, hchain⟩
            intro b hb
            rw [hhead] at hb
            simp only [Option.mem_def, Option.some.injEq] at hb
            subst hb
            exact ⟨hstep_x, hstep_y⟩
        · -- x-only step
          rw [if_pos hC1, if_pos hC1, if_neg hC2, if_neg hC2]
          have hrx1 := hover_x hC1
          obtain ⟨hne, hhead, hlast, hchain⟩ := ih (x0 + sx) y0
            (err - dy) (by rw [hnew_x]; omega)
            (by rw [hnew_x]; omega) (by rw [hnew_x]; omega) h3 h4
            (by rw [hnew_x]; linear_combination herr)
          refine ⟨by simp, by simp, ?_, ?_⟩
          · rcases hrest : bresLoop x1 y1 dx dy sx sy fuel (x0 + sx) y0
                (err - dy) with _ | ⟨b, t⟩
            · exact absurd hrest hne
            · rw [hrest] at hlast
              rw [List.getLast?_cons_cons]
              exact hlast
          · refine List.chain'_cons'.mpr ⟨?_, hchain⟩
            intro b hb
            rw [hhead] at hb
            simp only [Option.mem_def, Option.some.injEq] at hb
            subst hb
            exact ⟨hstep_x, by simpa using hstep_0⟩
      · by_cases hC2 : 2 * err < dx
        · -- y-only step
          rw [if_neg hC1, if_neg hC1, if_pos hC2, if_pos hC2]
          have hry1 := hover_y hC2
          obtain ⟨hne, hhead, hlast, hchain⟩ := ih x0 (y0 + sy)
            (err + dx) (by rw [hnew_y]; omega)
            h1 h2 (by rw [hnew_y]; omega) (by rw [hnew_y]; omega)
            (by rw [hnew_y]; linear_combination herr)
          refine ⟨by simp, by simp, ?_, ?_⟩
          · rcases hrest : bresLoop x1 y1 dx dy sx sy fuel x0 (y0 + sy)
                (err + dx) with _ | ⟨b, t⟩
            · exact absurd hrest hne
            · rw [hrest] at hlast
              rw [List.getLast?_cons_cons]
              exact hlast
          · refine List.chain'_cons'.mpr ⟨?_, hchain⟩
            intro b hb
            rw [hhead] at hb
            simp only [Option.mem_def, Option.some.injEq] at hb
            subst hb
            exact ⟨by simpa using hstep_0, hstep_y⟩
        · -- both conditions false is impossible away from the target
          exfalso
          have hdxdy : dx = 0 ∧ dy = 0 := by omega
          have hrx0 : sx * (x1 - x0) = 0 := by omega
          have hry0 : sy * (y1 - y0) = 0 := by omega
          exact hnz ⟨hrx0, hry0⟩

/-- C10: `create_line` terminates (the fuel given to the embedded loop is
enough to reach the Python loop's `break`) and returns a non-empty list
of integer cells that starts at `(x0, y0)`, ends at `(x1, y1)`, and moves
by at most one cell in each coordinate between consecutive entries. -/
theorem create_line_spec (x0 y0 x1 y1 : ℤ) :
    create_line x0 y0 x1 y1 ≠ [] ∧
    (create_line x0 y0 x1 y1).head? = some (x0, y0) ∧
    (create_line x0 y0 x1 y1).getLast? = some (x1, y1) ∧
    List.Chain' (fun p q => |q.1 - p.1| ≤ 1 ∧ |q.2 - p.2| ≤ 1)
      (create_line x0 y0 x1 y1) := by
  have hsx : (if x0 < x1 then (1 : ℤ) else -1) * (if x0 < x1 then (1 : ℤ) else -1) = 1 := by
    split_ifs <;> decide
  have hsy : (if y0 < y1 then (1 : ℤ) else -1) * (if y0 < y1 then (1 : ℤ) else -1) = 1 := by
    split_ifs <;> decide
  have hrx : (if x0 < x1 then (1 : ℤ) else -1) * (x1 - x0) = |x1 - x0| := by
    split_ifs with h
    · rw [one_mul, abs_of_nonneg (by omega)]
    · rw [neg_one_mul, ← abs_neg, abs_of_nonneg (by omega)]
  have hry : (if y0 < y1 then (1 : ℤ) else -1) * (y1 - y0) = |y1 - y0| := by
    split_ifs with h
    · rw [one_mul, abs_of_nonneg (by omega)]
    · rw [neg_one_mul, ← abs_neg, abs_of_nonneg (by omega)]
  have hfuel : ((|x1 - x0| + |y1 - y0| + 1).toNat : ℤ) = |x1 - x0| + |y1 - y0| + 1 :=
    Int.toNat_of_nonneg (by positivity)
  exact bresLoop_spec x1 y1 (|x1 - x0|) (|y1 - y0|) _ _ hsx hsy
    ((|x1 - x0| + |y1 - y0| + 1).toNat) x0 y0 (|x1 - x0| - |y1 - y0|)
    (by rw [hfuel, hrx, hry]; omega)
    (by rw [hrx]; exact abs_nonneg _) (by rw [hrx])
    (by rw [hry]; exact abs_nonneg _) (by rw [hry])
    (by rw [hrx, hry]; ring)

end MultiSlam
